import Mathlib

/-!
# parse-actions-logs

A shallow embedding of `parse-actions-logs.go` and the properties of it that
the specification states.

Byte buffers (`[]byte`) and Go strings are lists of bytes; a byte is a natural
number (every theorem quantifying over buffers therefore also covers all real
buffers, whose elements are below 256).  The three regular expressions of the
program are embedded as hand-written matchers that return what Go's
leftmost-first engine returns at one start position; `FindAll` and `ReplaceAll`
are one scanning driver each.  Slice expressions are checked: a slice out of
range makes the embedded function return `none`, the counterpart of a Go panic.
`saveFailure` yields the file it asks the operating system to write; `saveFailureOn`
and `parseFileOn` take the answers of the operating system to `os.MkdirAll` and
`ioutil.WriteFile` as a parameter and yield the files written.  An archive is the
list of its members, each with its name and with what opening and reading it
yields.
-/

namespace ParseActionsLogs

/-! ## Bytes -/

abbrev Byte := Nat
abbrev Bytes := List Byte

/-- Bytes of a string literal all of whose characters are ASCII. -/
def ascii (s : String) : Bytes := s.toList.map Char.toNat

/-- Line feed. -/
def NL : Byte := 10
/-- Carriage return. -/
def CR : Byte := 13
/-- Horizontal tab. -/
def TAB : Byte := 9
/-- The byte of `/`. -/
def SLASH : Byte := 47
/-- The byte of `\`. -/
def BACKSLASH : Byte := 92

/-- Go slice expression `buf[lo:hi]`: `none` stands for the out-of-range panic. -/
def slice (buf : Bytes) (lo hi : Nat) : Option Bytes :=
  if lo ≤ hi ∧ hi ≤ buf.length then some ((buf.drop lo).take (hi - lo)) else none

/-! ## Regular expressions -/

/-- Class `\d` of Go's regexp: the ASCII digits, the bytes 48 to 57. -/
def isDigit (b : Byte) : Bool := decide (48 ≤ b) && decide (b ≤ 57)

/-- Class `\s` of Go's regexp: `[\t\n\f\r ]`, the bytes 9, 10, 12, 13 and 32. -/
def isSpace (b : Byte) : Bool := b == 9 || b == 10 || b == 12 || b == 13 || b == 32

/-- A one-byte literal of a pattern. -/
def lit (c : Byte) (b : Byte) : Bool := b == c

/-- Matches a sequence of one-byte atoms (literals and classes) at the head of the
input and returns the input that remains. -/
def matchSeq : List (Byte → Bool) → Bytes → Option Bytes
  | [], s => some s
  | _ :: _, [] => none
  | p :: ps, b :: s => if p b then matchSeq ps s else none

/-- The atoms of a literal of a pattern, all of whose characters are ASCII. -/
def litSeq (s : String) : List (Byte → Bool) := (ascii s).map lit

/-- The atoms of `\d{4}-\d{2}-\d{2}T\d{2}:\d{2}:\d{2}`. -/
def timestampHead : List (Byte → Bool) :=
  [isDigit, isDigit, isDigit, isDigit] ++ litSeq "-" ++ [isDigit, isDigit] ++ litSeq "-" ++
    [isDigit, isDigit] ++ litSeq "T" ++ [isDigit, isDigit] ++ litSeq ":" ++
    [isDigit, isDigit] ++ litSeq ":" ++ [isDigit, isDigit]

/-- The atoms of `Z ` that end a timestamp. -/
def timestampTail : List (Byte → Bool) := litSeq "Z "

/-- The rest of a timestamp with the optional group `(\.\d*)?` taken: a dot, the
longest run of digits (a shorter run would leave a digit where `Z` is required),
then `Z `.  Returns the number of bytes matched. -/
def timestampFraction : Bytes → Option Nat
  | [] => none
  | b :: r =>
    if b == 46 then  -- the dot
      match matchSeq timestampTail (r.dropWhile isDigit) with
      | some _ => some (1 + (r.takeWhile isDigit).length + 2)
      | none => none
    else none

/-- The rest of a timestamp with the optional group skipped: `Z `. -/
def timestampPlain (r : Bytes) : Option Nat :=
  match matchSeq timestampTail r with
  | some _ => some 2
  | none => none

/-- The pattern of `timestampRe` after its `^`,
`\d{4}-\d{2}-\d{2}T\d{2}:\d{2}:\d{2}(\.\d*)?Z `, matched at the head of the input:
the length of the match.  The greedy `?` tries the group first. -/
def matchTimestamp (s : Bytes) : Option Nat :=
  match matchSeq timestampHead s with
  | none => none
  | some r =>
    match (timestampFraction r).orElse (fun _ => timestampPlain r) with
    | some n => some (19 + n)
    | none => none

/-- The lazy `.*?` followed by ` \(` of `failRe`: the number of bytes the `.*?`
takes, the least one after which ` (` follows; `.` does not match a line feed. -/
def lazyUntilParen : Bytes → Option Nat
  | [] => none
  | b :: r =>
    if (b == 32 && r.head? == some 40) then some 0  -- a blank, then `(`
    else if b == 10 then none  -- a line feed
    else (lazyUntilParen r).map (· + 1)

/-- The literal `--- FAIL: Test` of `failRe`. -/
def failLiteral : List (Byte → Bool) := litSeq "--- FAIL: Test"

/-- The pattern of `failRe` after its `^`, `\s*--- FAIL: (Test.*?) \(`, matched at
the head of the input: the length of the match and the bytes of group 1.  The
greedy `\s*` takes the whole run of white space, as the literal starts with `-`. -/
def matchFail (s : Bytes) : Option (Nat × Bytes) :=
  let ws := (s.takeWhile isSpace).length
  match matchSeq failLiteral (s.dropWhile isSpace) with
  | none => none
  | some r =>
    match lazyUntilParen r with
    | none => none
    | some j => some (ws + 14 + j + 2, ascii "Test" ++ r.take j)

/-- Offsets of the two groups of a `splitRe` match, relative to its start. -/
structure SplitGroups where
  g1s : Nat
  g1e : Nat
  g2s : Nat
  g2e : Nat
deriving DecidableEq, Repr

/-- The alternation `(ok  |FAIL|\?   )` of `splitRe`, in the order of the pattern. -/
def matchStatus (s : Bytes) : Option Bytes :=
  (matchSeq (litSeq "ok  ") s).orElse fun _ =>
  (matchSeq (litSeq "FAIL") s).orElse fun _ =>
  matchSeq (litSeq "?   ") s

/-- The pattern of `splitRe` after its `^`, `(ok  |FAIL|\?   )\t([^\t]+)\t.*$`,
matched at the head of the input: the length of the match and the offsets of the
groups.  `[^\t]+` may contain line feeds and, being followed by a tab, takes the
whole run up to the next tab; `.*` takes the rest of the line, where `$` holds. -/
def matchSplit (s : Bytes) : Option (Nat × SplitGroups) :=
  match matchStatus s with
  | none => none
  | some r =>
    match matchSeq (litSeq "\t") r with
    | none => none
    | some r1 =>
      let k := (r1.takeWhile (· != TAB)).length
      if k = 0 then none
      else
        match matchSeq (litSeq "\t") (r1.dropWhile (· != TAB)) with
        | none => none
        | some r2 =>
          let e := (r2.takeWhile (· != NL)).length
          some (5 + k + 1 + e, ⟨0, 4, 5, 5 + k⟩)

/-- One match of `FindAll`: its bounds in the buffer and what the matcher returned. -/
structure Found (α : Type) where
  start : Nat
  stop : Nat
  val : α
deriving DecidableEq, Repr

/-- The scan of `FindAll` for a pattern that starts with `^` under `(?m)` and never
matches the empty string.  `pos` is the offset of the head of the input, `bol`
tells whether that offset is at the start of the text or follows a line feed,
`skip` is the number of bytes left of the previous match.  The leftmost start
that matches is taken and the search resumes at the end of the match. -/
def findAllAux {α : Type} (m : Bytes → Option (Nat × α)) :
    Nat → Bool → Nat → Bytes → List (Found α)
  | _, _, _, [] => []
  | pos, _, skip + 1, b :: rest => findAllAux m (pos + 1) (b == 10) skip rest
  | pos, false, 0, b :: rest => findAllAux m (pos + 1) (b == 10) 0 rest
  | pos, true, 0, b :: rest =>
    match m (b :: rest) with
    | some (len, a) => ⟨pos, pos + len, a⟩ :: findAllAux m (pos + 1) (b == 10) (len - 1) rest
    | none => findAllAux m (pos + 1) (b == 10) 0 rest

/-- All matches of a line-anchored pattern in a buffer. -/
def findAll {α : Type} (m : Bytes → Option (Nat × α)) (buf : Bytes) : List (Found α) :=
  findAllAux m 0 true 0 buf

/-- The scan of `ReplaceAll` with the empty replacement, for a pattern that starts
with `^` under `(?m)`: the bytes of every match are dropped, the others copied. -/
def removeAllAux (m : Bytes → Option Nat) : Bool → Nat → Bytes → Bytes
  | _, _, [] => []
  | _, skip + 1, b :: rest => removeAllAux m (b == 10) skip rest
  | false, 0, b :: rest => b :: removeAllAux m (b == 10) 0 rest
  | true, 0, b :: rest =>
    match m (b :: rest) with
    | some len => removeAllAux m (b == 10) (len - 1) rest
    | none => b :: removeAllAux m (b == 10) 0 rest

/-- Embedding of `timestampRe.ReplaceAll(buf, []byte{})`. -/
def stripTimestamps (buf : Bytes) : Bytes := removeAllAux matchTimestamp true 0 buf

/-- Embedding of `failRe.FindAllSubmatch(buf, -1)`, each match with its group 1. -/
def failReFindAll (buf : Bytes) : List (Found Bytes) := findAll matchFail buf

/-- One entry of `splitRe.FindAllSubmatchIndex`: `part[0]` to `part[5]`. -/
structure SplitMatch where
  start : Nat
  stop : Nat
  g1s : Nat
  g1e : Nat
  g2s : Nat
  g2e : Nat
deriving DecidableEq, Repr

/-- Embedding of `splitRe.FindAllSubmatchIndex(buf, -1)`. -/
def splitReFindAll (buf : Bytes) : List SplitMatch :=
  (findAll matchSplit buf).map fun f =>
    ⟨f.start, f.stop, f.start + f.val.g1s, f.start + f.val.g1e,
      f.start + f.val.g2s, f.start + f.val.g2e⟩

/-! ## Library functions of `strings`, `bytes` and `path/filepath` -/

/-- Embedding of `strings.Split(s, sep)` for a separator of one byte: the pieces
between the separators, one more than there are separators. -/
def Split (sep : Byte) : Bytes → List Bytes
  | [] => [[]]
  | b :: s =>
    if b = sep then [] :: Split sep s
    else
      match Split sep s with
      | [] => [[b]]
      | p :: ps => (b :: p) :: ps

/-- Embedding of `strings.Join(parts, sep)`. -/
def Join (sep : Bytes) : List Bytes → Bytes
  | [] => []
  | [p] => p
  | p :: q :: ps => p ++ sep ++ Join sep (q :: ps)

/-- The scan of `strings.Replace(s, old, new, -1)` for a non-empty `old`: the
occurrences of `old` are replaced from left to right and do not overlap; `skip`
is the number of bytes left of the occurrence being replaced. -/
def ReplaceAux (old new : Bytes) : Nat → Bytes → Bytes
  | _, [] => []
  | skip + 1, _ :: rest => ReplaceAux old new skip rest
  | 0, b :: rest =>
    if old.isPrefixOf (b :: rest) then new ++ ReplaceAux old new (old.length - 1) rest
    else b :: ReplaceAux old new 0 rest

/-- Embedding of `strings.Replace(s, old, new, -1)` and of `bytes.Replace`, for
the non-empty `old` of every call in the program. -/
def Replace (s old new : Bytes) : Bytes := ReplaceAux old new 0 s

/-- White space that `bytes.TrimSpace` removes, among the ASCII bytes. -/
def isTrimSpace (b : Byte) : Bool :=
  b == 9 || b == 10 || b == 11 || b == 12 || b == 13 || b == 32

/-- Embedding of `bytes.TrimSpace` for ASCII input (what group 1 of `splitRe` holds). -/
def TrimSpace (s : Bytes) : Bytes :=
  ((s.dropWhile isTrimSpace).reverse.dropWhile isTrimSpace).reverse

/-- Embedding of `filepath.Base` where the separator is `/`. -/
def Base (path : Bytes) : Bytes :=
  if path = [] then ascii "."
  else
    let stripped := (path.reverse.dropWhile (· == SLASH)).reverse
    let last := (stripped.reverse.takeWhile (· != SLASH)).reverse
    if last = [] then ascii "/" else last

/-- The loop of `filepath.Ext` over the reversed path: the reversed extension found
so far grows until a dot is met; a separator or the start of the path ends the
search with no extension. -/
def ExtAux (acc : Bytes) : Bytes → Bytes
  | [] => []
  | b :: rest =>
    if b == SLASH then []
    else if b == 46 then b :: acc
    else ExtAux (b :: acc) rest

/-- Embedding of `filepath.Ext` where the separator is `/`: the suffix that starts
at the last dot of the last element of the path, empty when there is no dot. -/
def Ext (path : Bytes) : Bytes := ExtAux [] path.reverse

/-! ## The program -/

/-- The bytes of the full-width solidus, the replacement of `/`. -/
def fullSolidus : Bytes := [239, 188, 143]

/-- The bytes of the full-width reverse solidus, the replacement of `\`. -/
def fullReverseSolidus : Bytes := [239, 188, 188]

/-- Embedding of `toFileName`. -/
def toFileName (s : Bytes) : Bytes :=
  let s := Replace s [SLASH] fullSolidus
  let s := Replace s [BACKSLASH] fullReverseSolidus
  s

/-- The inner loop of `findFailures`: `strings.Join(parts[:i], "/")` for `i` from
`len(parts) - 1` down to `1`, the keys added to `excludeParents`. -/
def parentPaths (failedTest : Bytes) : List Bytes :=
  let parts := Split SLASH failedTest
  ((List.range (parts.length - 1)).reverse).map fun j => Join [SLASH] (parts.take (j + 1))

/-- The first loop of `findFailures` over the matches: the names appended to
`failedTests` and the keys of `excludeParents`. -/
def collectFailures : List (Found Bytes) → List Bytes × List Bytes → List Bytes × List Bytes
  | [], acc => acc
  | m :: ms, (failedTests, excludeParents) =>
    collectFailures ms (failedTests ++ [m.val], parentPaths m.val ++ excludeParents)

/-- Embedding of `findFailures`. -/
def findFailures (buf : Bytes) : List Bytes :=
  let (failedTests, excludeParents) := collectFailures (failReFindAll buf) ([], [])
  failedTests.filter fun failedTest => !(excludeParents.contains failedTest)

/-- The file `saveFailure` asks to be written: the elements it gives to
`filepath.Join` for the directory, the element it joins to the directory for the
file, and the bytes written. -/
structure SavedFile where
  dir : List Bytes
  file : Bytes
  content : Bytes
deriving DecidableEq, Repr

/-- Embedding of `saveFailure` where `os.MkdirAll` and `ioutil.WriteFile` succeed: the
file written (`saveFailureOn` has the two error returns); `outputDir` is the value
of the flag `-o`.  The result is `none` when the slice of `zipName` is out of
range. -/
def saveFailure (outputDir zipFile name module failedTest buf : Bytes) : Option SavedFile :=
  let dir := [outputDir, toFileName module, toFileName failedTest]
  let zipName := Base zipFile
  if (Ext zipName).length ≤ zipName.length then
    match slice zipName 0 (zipName.length - (Ext zipName).length) with
    | none => none
    | some zipName =>
      some ⟨dir, toFileName (name ++ ascii "-" ++ zipName ++ ascii ".txt"), buf⟩
  else none

/-- The body of the loop of `parseFile` for one entry of `parts`: the file saved, if
any; `none` is a slice out of range. -/
def parsePart (outputDir zipFile name buf : Bytes) (prev : Nat) (part : SplitMatch) :
    Option (List SavedFile) :=
  match slice buf part.g1s part.g1e, slice buf part.g2s part.g2e with
  | some g1, some module =>
    let status := TrimSpace g1
    if status = ascii "FAIL" then
      match slice buf prev part.stop with
      | none => none
      | some toSearch =>
        match findFailures toSearch with
        | [] => some []
        | failedTest :: _ =>
          match saveFailure outputDir zipFile name module failedTest toSearch with
          | none => none
          | some f => some [f]
    else some []
  | _, _ => none

/-- The loop of `parseFile` over `parts`, with the variable `prev`. -/
def parseLoop (outputDir zipFile name buf : Bytes) : Nat → List SplitMatch →
    Option (List SavedFile)
  | _, [] => some []
  | prev, part :: parts =>
    match parsePart outputDir zipFile name buf prev part with
    | none => none
    | some saved =>
      match parseLoop outputDir zipFile name buf part.stop parts with
      | none => none
      | some more => some (saved ++ more)

/-- The first two statements of `parseFile`: carriage returns and the timestamps at
the start of lines are removed. -/
def cleanBuffer (buf : Bytes) : Bytes := stripTimestamps (Replace buf [CR] [])

/-- What a call of `parseFile` does: the files it saves and the error it returns. -/
structure ParseOutcome where
  saved : List SavedFile
  err : Option Bytes
deriving DecidableEq, Repr

/-- Embedding of `parseFile`; `none` is a slice out of range. -/
def parseFile (outputDir zipFile name buf : Bytes) : Option ParseOutcome :=
  let buf := cleanBuffer buf
  let parts := splitReFindAll buf
  if parts.length = 0 then some ⟨[], none⟩
  else
    match parseLoop outputDir zipFile name buf 0 parts with
    | none => none
    | some saved => some ⟨saved, none⟩

/-! ## Notions of the specification -/

/-- The names captured by the failure-marker pattern, in order of appearance. -/
def capturedNames (buf : Bytes) : List Bytes := (failReFindAll buf).map (·.val)

/-- Name `a` is a strict ancestor path of name `b`: the `/`-split parts of `a` are a
proper leading sub-sequence of the `/`-split parts of `b`. -/
def StrictAncestor (a b : Bytes) : Prop :=
  Split SLASH a <+: Split SLASH b ∧ Split SLASH a ≠ Split SLASH b

instance (a b : Bytes) : Decidable (StrictAncestor a b) :=
  inferInstanceAs (Decidable (_ ∧ _))

/-- The names that are not a strict ancestor path of a name of the list, in the
order of the list. -/
def leafNames (names : List Bytes) : List Bytes :=
  names.filter fun n => decide (¬ ∃ m ∈ names, StrictAncestor n m)

/-! ## Path components, as the specification speaks of them -/

/-- The substitution the specification describes for a path component: every `/`
becomes the full-width solidus, every `\` the full-width reverse solidus, every
other byte stays. -/
def substituteSeparators : Bytes → Bytes
  | [] => []
  | b :: s =>
    (if b = SLASH then fullSolidus else if b = BACKSLASH then fullReverseSolidus else [b])
      ++ substituteSeparators s

/-- Reads a sanitised name back: each full-width substitute becomes its separator. -/
def restoreSeparators : Bytes → Bytes
  | [] => []
  | [a] => [a]
  | [a, b] => [a, b]
  | a :: b :: c :: rest =>
    if a = 239 ∧ b = 188 ∧ c = 143 then SLASH :: restoreSeparators rest
    else if a = 239 ∧ b = 188 ∧ c = 188 then BACKSLASH :: restoreSeparators rest
    else a :: restoreSeparators (b :: c :: rest)
termination_by s => s.length

/-- The archive's base name without its extension, as `saveFailure` computes it. -/
def archiveBaseNameWithoutExt (zipFile : Bytes) : Bytes :=
  (Base zipFile).take ((Base zipFile).length - (Ext (Base zipFile)).length)

/-- The file of the path construction the specification states:
`<outputRoot>/<sanitize(modulePath)>/<sanitize(failureName)>/<sanitize(failureName + "-" + archiveBaseNameWithoutExt)>.txt`. -/
def specSavedFile (outputDir zipFile module failureName content : Bytes) : SavedFile :=
  ⟨[outputDir, toFileName module, toFileName failureName],
    toFileName (failureName ++ ascii "-" ++ archiveBaseNameWithoutExt zipFile) ++ ascii ".txt",
    content⟩

/-! ## Markers, windows and saves, as the specification speaks of them -/

/-- The status of a marker: group 1 of the match, white space trimmed. -/
def statusOf (b : Bytes) (part : SplitMatch) : Bytes :=
  TrimSpace ((b.drop part.g1s).take (part.g1e - part.g1s))

/-- The module path of a marker: group 2 of the match. -/
def moduleOf (b : Bytes) (part : SplitMatch) : Bytes :=
  (b.drop part.g2s).take (part.g2e - part.g2s)

/-- The bytes from offset `lo` to the end of the marker line `part`. -/
def windowOf (b : Bytes) (lo : Nat) (part : SplitMatch) : Bytes :=
  (b.drop lo).take (part.stop - lo)

/-- Each marker with the offset at which its search window starts: `first` for the
first marker, the end of the marker before it for every other one. -/
def markerWindows (first : Nat) (parts : List SplitMatch) : List (SplitMatch × Nat) :=
  parts.zip (first :: parts.map (·.stop))

/-- The arguments of one call of `saveFailure` that vary within a member. -/
structure SaveCall where
  module : Bytes
  failedTest : Bytes
  content : Bytes
deriving DecidableEq, Repr

/-- The save a marker causes: one for a `FAIL` marker whose window has a failure
name, with the first such name, and none otherwise. -/
def saveCallOf (b : Bytes) (mw : SplitMatch × Nat) : Option SaveCall :=
  if statusOf b mw.1 = ascii "FAIL" then
    match findFailures (windowOf b mw.2 mw.1) with
    | [] => none
    | failedTest :: _ => some ⟨moduleOf b mw.1, failedTest, windowOf b mw.2 mw.1⟩
  else none

/-- The saves of the markers of a cleaned buffer, in order. -/
def saveCalls (b : Bytes) : List SaveCall :=
  (markerWindows 0 (splitReFindAll b)).filterMap (saveCallOf b)

/-- Matches that lie one after the other between `lo` and `hi`, none of them empty. -/
def FoundChain {α : Type} (hi : Nat) : Nat → List (Found α) → Prop
  | _, [] => True
  | lo, f :: fs => lo ≤ f.start ∧ f.start < f.stop ∧ f.stop ≤ hi ∧ FoundChain hi f.stop fs

/-- Entries of `splitRe.FindAllSubmatchIndex` that lie one after the other between
`lo` and `hi`, each with its groups in order inside the match. -/
def WellPlaced (hi : Nat) : Nat → List SplitMatch → Prop
  | _, [] => True
  | lo, p :: ps =>
    lo ≤ p.start ∧ p.start ≤ p.g1s ∧ p.g1s ≤ p.g1e ∧ p.g1e ≤ p.g2s ∧ p.g2s ≤ p.g2e ∧
      p.g2e ≤ p.stop ∧ p.stop ≤ hi ∧ WellPlaced hi p.stop ps

/-! ## Timestamps at the start of a line -/

/-- The part of a buffer before its first line feed. -/
def firstLine (s : Bytes) : Bytes := s.takeWhile (· != 10)

/-- Offset `i` of `b` starts a line that begins with two timestamps in a row. -/
def doubleStampAt (b : Bytes) (i : Nat) : Bool :=
  (i == 0 || b.get? (i - 1) == some 10) &&
    match matchTimestamp (b.drop i) with
    | some len => (matchTimestamp (b.drop (i + len))).isSome
    | none => false

/-- No timestamp at a line start of `l` is followed at once by a second timestamp;
`bol` tells whether `l` itself starts a line. -/
def Fresh (bol : Bool) (l : Bytes) : Prop :=
  ∀ pre post, l = pre ++ post → ((pre = [] ∧ bol = true) ∨ pre.getLast? = some 10) →
    ∀ len, matchTimestamp post = some len → matchTimestamp (post.drop len) = none

/-! ## Example inputs -/

/-- A segment in which test `TestA` and its subtests `Sub1` and `Sub2` fail. -/
def segmentTestA : Bytes := ascii
  "--- FAIL: TestA (0.00s)\n    --- FAIL: TestA/Sub1 (0.00s)\n    --- FAIL: TestA/Sub2 (0.00s)\n"

/-- The member of the end-to-end scenario of the specification, in the format of
`go test`: an `ok` line, a `FAIL` line and then the `--- FAIL: TestFoo` line, each
with a timestamp. -/
def scenarioLog : Bytes := ascii
  ("2020-04-15T12:19:01.000Z ok  \tgithub.com/x/a\t0.1s\n" ++
   "2020-04-15T12:19:02.000Z FAIL\tgithub.com/x/b\t0.2s\n" ++
   "2020-04-15T12:19:02.500Z     --- FAIL: TestFoo (0.00s)\n")

/-- The same member with a tab right after every status token. -/
def scenarioLogTab : Bytes := ascii
  ("2020-04-15T12:19:01.000Z ok\tgithub.com/x/a\t0.1s\n" ++
   "2020-04-15T12:19:02.000Z FAIL\tgithub.com/x/b\t0.2s\n" ++
   "2020-04-15T12:19:02.500Z     --- FAIL: TestFoo (0.00s)\n")

/-- The lines of the scenario in the order in which `go test` prints them: the
`--- FAIL: TestFoo` line before the `FAIL` line of its module. -/
def scenarioReordered : Bytes := ascii
  ("2020-04-15T12:19:01.000Z ok  \tgithub.com/x/a\t0.1s\n" ++
   "2020-04-15T12:19:02.500Z     --- FAIL: TestFoo (0.00s)\n" ++
   "2020-04-15T12:19:02.000Z FAIL\tgithub.com/x/b\t0.2s\n")

/-- A member that is a single `?` marker line. -/
def noTestFilesLog : Bytes := ascii "?   \tgithub.com/x/c\t[no test files]\n"

/-- A `FAIL` marker line and nothing else. -/
def failMarkerOnly : Bytes := ascii "FAIL\tgithub.com/x/b\t0.2s\n"

/-- A failure line, to stand before the first marker line. -/
def failurePreamble : Bytes := ascii "    --- FAIL: TestFoo (0.00s)\n"

/-- A member in which two tests that are not related fail in one module. -/
def twoLeavesLog : Bytes := ascii
  "--- FAIL: TestA (0.00s)\n--- FAIL: TestB (0.00s)\nFAIL\tgithub.com/x/b\t0.2s\n"

/-- A line that starts with two timestamps. -/
def doubleStampLog : Bytes := ascii "2020-04-15T12:19:01Z 2020-04-15T12:19:01Z ok\n"

/-- Two lines that start with one timestamp each. -/
def singleStampLog : Bytes := ascii "2020-04-15T12:19:01.5953417Z ok\n2020-04-15T12:19:02Z FAIL\n"

/-! ## Archives -/

/-- What opening and reading one member of an archive yields: `f.Open()` fails,
`ioutil.ReadAll` fails, or the bytes of the member. -/
inductive MemberData where
  | openFails
  | readFails
  | bytes (buf : Bytes)
deriving DecidableEq, Repr

/-- One entry of `r.File`: its name and what opening and reading it yields. -/
structure ZipMember where
  name : Bytes
  data : MemberData
deriving DecidableEq, Repr

/-- The errors `parseZip` returns: `failed to open zip file`, `failed to open zipped
file`, `failed to read zipped file`. -/
inductive ZipError where
  | openZip
  | openMember
  | readMember
deriving DecidableEq, Repr

/-- What a call of `parseZip` does: the members it passes to `parseFile` (name and
content, in order), the files saved, and the error it returns. -/
structure ZipOutcome where
  parsed : List (Bytes × Bytes)
  saved : List SavedFile
  err : Option ZipError
deriving DecidableEq, Repr

/-- The loop of `parseZip` over `r.File`.  A member without `/` in its name is skipped
before it is opened; a member that fails to open or to read makes the function
return; the error of `parseFile` is only logged.  `none` is a slice out of range in
`parseFile`. -/
def parseZipLoop (outputDir zipFile : Bytes) : List ZipMember → Option ZipOutcome
  | [] => some ⟨[], [], none⟩
  | f :: fs =>
    if !(f.name.contains SLASH) then parseZipLoop outputDir zipFile fs
    else
      match f.data with
      | .openFails => some ⟨[], [], some .openMember⟩
      | .readFails => some ⟨[], [], some .readMember⟩
      | .bytes buf =>
        match parseFile outputDir zipFile f.name buf with
        | none => none
        | some o =>
          match parseZipLoop outputDir zipFile fs with
          | none => none
          | some r => some ⟨(f.name, buf) :: r.parsed, o.saved ++ r.saved, r.err⟩

/-- Embedding of `parseZip`; `archive` is what `zip.OpenReader(zipFile)` yields, `none`
when the archive cannot be opened. -/
def parseZip (outputDir zipFile : Bytes) (archive : Option (List ZipMember)) :
    Option ZipOutcome :=
  match archive with
  | none => some ⟨[], [], some .openZip⟩
  | some files => parseZipLoop outputDir zipFile files

/-- A member can be opened and read. -/
def ZipMember.readable (f : ZipMember) : Bool :=
  match f.data with
  | .bytes _ => true
  | _ => false

/-- The content of a member, empty when it cannot be read. -/
def ZipMember.content (f : ZipMember) : Bytes :=
  match f.data with
  | .bytes buf => buf
  | _ => []

/-- The members whose name contains `/`, in archive order, each with its content. -/
def membersInSubdirectories (files : List ZipMember) : List (Bytes × Bytes) :=
  (files.filter fun f => f.name.contains SLASH).map fun f => (f.name, f.content)

/-! ## The loop variables of `parseFile` -/

/-- The values of `prev` and `end` in the iterations of the loop of `parseFile`. -/
def loopWindows : Nat → List SplitMatch → List (Nat × Nat)
  | _, [] => []
  | prev, part :: parts => (prev, part.stop) :: loopWindows part.stop parts

/-- The end of the last marker line, 0 when there is no marker. -/
def lastMarkerEnd (parts : List SplitMatch) : Nat :=
  match parts.getLast? with
  | some part => part.stop
  | none => 0

/-- The end of the last marker line, `prev` when there is no marker. -/
def lastEndFrom : Nat → List SplitMatch → Nat
  | prev, [] => prev
  | _, part :: parts => lastEndFrom part.stop parts

/-- The bytes of the windows, one after the other. -/
def windowBytes (b : Bytes) : List (Nat × Nat) → Bytes
  | [] => []
  | w :: ws => (b.drop w.1).take (w.2 - w.1) ++ windowBytes b ws

/-! ## `findFailures` with its slices and indices checked -/

/-- Go slice expression `parts[:hi]`: `none` stands for the out-of-range panic. -/
def sliceTo {α : Type} (parts : List α) (hi : Nat) : Option (List α) :=
  if hi ≤ parts.length then some (parts.take hi) else none

/-- Collects the values of a list when none of them is missing. -/
def allSome {α : Type} : List (Option α) → Option (List α)
  | [] => some []
  | none :: _ => none
  | some a :: rest =>
    match allSome rest with
    | none => none
    | some as => some (a :: as)

/-- The inner loop of `findFailures` with `parts[:i]` checked. -/
def parentPathsChecked (failedTest : Bytes) : Option (List Bytes) :=
  let parts := Split SLASH failedTest
  allSome (((List.range (parts.length - 1)).reverse).map fun j =>
    (sliceTo parts (j + 1)).map (Join [SLASH]))

/-- Embedding of `failRe.FindAllSubmatch(buf, -1)` as Go returns it: for each match the
bytes of the whole match and the bytes of group 1. -/
def failReSubmatches (buf : Bytes) : List (List Bytes) :=
  (failReFindAll buf).map fun f => [(buf.drop f.start).take (f.stop - f.start), f.val]

/-- The first loop of `findFailures` with `matches[1]` and `parts[:i]` checked. -/
def collectFailuresChecked :
    List (List Bytes) → List Bytes × List Bytes → Option (List Bytes × List Bytes)
  | [], acc => some acc
  | m :: ms, (failedTests, excludeParents) =>
    match m.get? 1 with
    | none => none
    | some failedTest =>
      match parentPathsChecked failedTest with
      | none => none
      | some parents =>
        collectFailuresChecked ms (failedTests ++ [failedTest], parents ++ excludeParents)

/-- Embedding of `findFailures` with every index and slice checked: `none` stands for
a panic. -/
def findFailuresChecked (buf : Bytes) : Option (List Bytes) :=
  match collectFailuresChecked (failReSubmatches buf) ([], []) with
  | none => none
  | some (failedTests, excludeParents) =>
    some (failedTests.filter fun failedTest => !(excludeParents.contains failedTest))

/-! ## Example archives -/

/-- An archive whose first member in a subdirectory cannot be opened and whose second
one holds a failure. -/
def archiveOpenFails : List ZipMember :=
  [⟨ascii "job1/log.txt", .openFails⟩, ⟨ascii "job2/log.txt", .bytes twoLeavesLog⟩]

/-- An archive whose first member in a subdirectory cannot be read and whose second one
holds a failure. -/
def archiveReadFails : List ZipMember :=
  [⟨ascii "job1/log.txt", .readFails⟩, ⟨ascii "job2/log.txt", .bytes twoLeavesLog⟩]

/-- An archive with a top-level member and two members in subdirectories. -/
def archiveReadable : List ZipMember :=
  [⟨ascii "summary.txt", .bytes twoLeavesLog⟩, ⟨ascii "job1/log.txt", .bytes noTestFilesLog⟩,
   ⟨ascii "job2/log.txt", .bytes twoLeavesLog⟩]

/-! ## The answers of the operating system to `saveFailure` -/

/-- What the operating system answers to the two calls of `saveFailure`: whether
`os.MkdirAll` fails for the directory (given as the elements joined), and whether
`ioutil.WriteFile` fails for the file (directory, file element and content). -/
structure FileSystem where
  mkdirAllFails : List Bytes → Bool
  writeFileFails : List Bytes → Bytes → Bytes → Bool

/-- Both calls of `saveFailure` succeed for this file. -/
def FileSystem.accepts (fs : FileSystem) (f : SavedFile) : Bool :=
  !(fs.mkdirAllFails f.dir) && !(fs.writeFileFails f.dir f.file f.content)

/-- Embedding of `saveFailure` with its two error returns: when `os.MkdirAll` or
`ioutil.WriteFile` fails, the error is logged and the function returns with nothing
written.  The result holds the file written, if any; `none` is a slice out of
range. -/
def saveFailureOn (fs : FileSystem) (outputDir zipFile name module failedTest buf : Bytes) :
    Option (List SavedFile) :=
  let dir := [outputDir, toFileName module, toFileName failedTest]
  if fs.mkdirAllFails dir then some []
  else
    let zipName := Base zipFile
    if (Ext zipName).length ≤ zipName.length then
      match slice zipName 0 (zipName.length - (Ext zipName).length) with
      | none => none
      | some zipName =>
        let fileName := toFileName (name ++ ascii "-" ++ zipName ++ ascii ".txt")
        if fs.writeFileFails dir fileName buf then some []
        else some [⟨dir, fileName, buf⟩]
    else none

/-- The body of the loop of `parseFile` for one entry of `parts`, on a file system
that may refuse: the file written, if any. -/
def parsePartOn (fs : FileSystem) (outputDir zipFile name buf : Bytes) (prev : Nat)
    (part : SplitMatch) : Option (List SavedFile) :=
  match slice buf part.g1s part.g1e, slice buf part.g2s part.g2e with
  | some g1, some module =>
    let status := TrimSpace g1
    if status = ascii "FAIL" then
      match slice buf prev part.stop with
      | none => none
      | some toSearch =>
        match findFailures toSearch with
        | [] => some []
        | failedTest :: _ => saveFailureOn fs outputDir zipFile name module failedTest toSearch
    else some []
  | _, _ => none

/-- The loop of `parseFile` over `parts`, on a file system that may refuse. -/
def parseLoopOn (fs : FileSystem) (outputDir zipFile name buf : Bytes) :
    Nat → List SplitMatch → Option (List SavedFile)
  | _, [] => some []
  | prev, part :: parts =>
    match parsePartOn fs outputDir zipFile name buf prev part with
    | none => none
    | some saved =>
      match parseLoopOn fs outputDir zipFile name buf part.stop parts with
      | none => none
      | some more => some (saved ++ more)

/-- Embedding of `parseFile` on a file system that may refuse: `saved` holds the
files written. -/
def parseFileOn (fs : FileSystem) (outputDir zipFile name buf : Bytes) :
    Option ParseOutcome :=
  let buf := cleanBuffer buf
  let parts := splitReFindAll buf
  if parts.length = 0 then some ⟨[], none⟩
  else
    match parseLoopOn fs outputDir zipFile name buf 0 parts with
    | none => none
    | some saved => some ⟨saved, none⟩

/-- The bytes of the window `w` of a buffer. -/
def windowSlice (b : Bytes) (w : Nat × Nat) : Bytes := (b.drop w.1).take (w.2 - w.1)

/-- The file that the loop of `parseFile` asks to be written for a marker, given the
bytes `toSearch` of its window: none unless the status is `FAIL` and `toSearch`
holds a failure name. -/
def requestOf (outputDir zipFile name b : Bytes) (part : SplitMatch) (toSearch : Bytes) :
    Option SavedFile :=
  if statusOf b part = ascii "FAIL" then
    match findFailures toSearch with
    | [] => none
    | failedTest :: _ =>
      some ⟨[outputDir, toFileName (moduleOf b part), toFileName failedTest],
        toFileName (name ++ ascii "-" ++ archiveBaseNameWithoutExt zipFile) ++ ascii ".txt",
        toSearch⟩
  else none

/-- A file system on which a path element of more than 255 bytes cannot be created,
and every other call succeeds. -/
def nameMaxFileSystem : FileSystem :=
  ⟨fun dir => dir.any fun e => decide (255 < e.length), fun _ file _ => decide (255 < file.length)⟩

/-- A file system on which every call succeeds. -/
def willingFileSystem : FileSystem := ⟨fun _ => false, fun _ _ _ => false⟩

/-- A member whose only failure has a name of 304 bytes. -/
def longNameLog : Bytes :=
  ascii "--- FAIL: Test" ++ List.replicate 300 120 ++ ascii " (0.00s)\nFAIL\tgithub.com/x/b\t0.2s\n"

/-- The scenario without its last line, the failure line after the last marker. -/
def scenarioMarkersOnly : Bytes := ascii
  ("2020-04-15T12:19:01.000Z ok  \tgithub.com/x/a\t0.1s\n" ++
   "2020-04-15T12:19:02.000Z FAIL\tgithub.com/x/b\t0.2s\n")

/-! ## Split and Join -/

theorem Split_ne_nil (sep : Byte) (s : Bytes) : Split sep s ≠ [] := by
  cases s with
  | nil => simp [Split]
  | cons b s =>
    simp only [Split]
    split
    · simp
    · split <;> simp

theorem Split_cons_sep (sep : Byte) (s : Bytes) : Split sep (sep :: s) = [] :: Split sep s := by
  simp [Split]

theorem Split_cons_other (sep b : Byte) (s : Bytes) (h : b ≠ sep) :
    ∃ p ps, Split sep s = p :: ps ∧ Split sep (b :: s) = (b :: p) :: ps := by
  cases hs : Split sep s with
  | nil => exact absurd hs (Split_ne_nil sep s)
  | cons p ps => exact ⟨p, ps, rfl, by simp [Split, h, hs]⟩

theorem Join_Split (sep : Byte) (s : Bytes) : Join [sep] (Split sep s) = s := by
  induction s with
  | nil => simp [Split, Join]
  | cons b s ih =>
    by_cases h : b = sep
    · subst h
      rw [Split_cons_sep]
      cases hs : Split b s with
      | nil => exact absurd hs (Split_ne_nil b s)
      | cons p ps =>
        rw [hs] at ih
        simp [Join, ih]
    · obtain ⟨p, ps, hs, hb⟩ := Split_cons_other sep b s h
      rw [hb]
      rw [hs] at ih
      cases ps with
      | nil => simp [Join] at ih ⊢; exact ih
      | cons q qs => simp [Join] at ih ⊢; exact ih

theorem Split_no_sep (sep : Byte) (s : Bytes) : ∀ p ∈ Split sep s, sep ∉ p := by
  induction s with
  | nil => simp [Split]
  | cons b s ih =>
    by_cases h : b = sep
    · subst h
      rw [Split_cons_sep]
      intro p hp
      rcases List.mem_cons.mp hp with rfl | hp
      · simp
      · exact ih p hp
    · obtain ⟨p, ps, hs, hb⟩ := Split_cons_other sep b s h
      rw [hb]
      rw [hs] at ih
      intro q hq
      rcases List.mem_cons.mp hq with rfl | hq
      · have := ih p (List.mem_cons_self _ _)
        simp only [List.mem_cons, not_or]
        exact ⟨fun e => h e.symm, this⟩
      · exact ih q (List.mem_cons_of_mem _ hq)

theorem Split_of_no_sep (sep : Byte) (p : Bytes) (h : sep ∉ p) : Split sep p = [p] := by
  induction p with
  | nil => simp [Split]
  | cons b p ih =>
    simp only [List.mem_cons, not_or] at h
    have hb : b ≠ sep := fun e => h.1 e.symm
    simp [Split, hb, ih h.2]

theorem Split_append_sep (sep : Byte) (p rest : Bytes) (h : sep ∉ p) :
    Split sep (p ++ sep :: rest) = p :: Split sep rest := by
  induction p with
  | nil => simp [Split]
  | cons b p ih =>
    simp only [List.mem_cons, not_or] at h
    have hb : b ≠ sep := fun e => h.1 e.symm
    simp [Split, hb, ih h.2]

theorem Split_Join (sep : Byte) (ps : List Bytes) (hne : ps ≠ [])
    (h : ∀ p ∈ ps, sep ∉ p) : Split sep (Join [sep] ps) = ps := by
  induction ps with
  | nil => exact absurd rfl hne
  | cons p ps ih =>
    cases ps with
    | nil => simpa [Join] using Split_of_no_sep sep p (h p (List.mem_cons_self _ _))
    | cons q qs =>
      have hp := h p (List.mem_cons_self _ _)
      have := ih (by simp) (fun r hr => h r (List.mem_cons_of_mem _ hr))
      simp only [Join, List.append_assoc, List.singleton_append]
      rw [Split_append_sep sep p _ hp, this]

/-! ## Ancestor paths -/

theorem mem_parentPaths (n t : Bytes) :
    n ∈ parentPaths t ↔
      ∃ j, j < (Split SLASH t).length - 1 ∧ n = Join [SLASH] ((Split SLASH t).take (j + 1)) := by
  simp only [parentPaths, List.mem_map, List.mem_reverse, List.mem_range]
  constructor
  · rintro ⟨j, hj, rfl⟩; exact ⟨j, hj, rfl⟩
  · rintro ⟨j, hj, rfl⟩; exact ⟨j, hj, rfl⟩

theorem mem_parentPaths_iff (n t : Bytes) : n ∈ parentPaths t ↔ StrictAncestor n t := by
  rw [mem_parentPaths]
  constructor
  · rintro ⟨j, hj, rfl⟩
    have hsplit : Split SLASH (Join [SLASH] ((Split SLASH t).take (j + 1))) =
        (Split SLASH t).take (j + 1) := by
      apply Split_Join
      · intro h
        have := congrArg List.length h
        simp only [List.length_take, List.length_nil] at this
        omega
      · intro p hp
        exact Split_no_sep SLASH t p (List.mem_of_mem_take hp)
    refine ⟨?_, ?_⟩
    · rw [hsplit]; exact List.take_prefix _ _
    · rw [hsplit]
      intro h
      have := congrArg List.length h
      simp only [List.length_take] at this
      omega
  · rintro ⟨hp, hne⟩
    have hlen : (Split SLASH n).length < (Split SLASH t).length := by
      rcases Nat.lt_or_ge (Split SLASH n).length (Split SLASH t).length with h | h
      · exact h
      · exact absurd (hp.eq_of_length (Nat.le_antisymm hp.length_le h)) hne
    have hpos : 0 < (Split SLASH n).length :=
      List.length_pos.mpr (Split_ne_nil SLASH n)
    refine ⟨(Split SLASH n).length - 1, by omega, ?_⟩
    have htake : (Split SLASH t).take ((Split SLASH n).length - 1 + 1) = Split SLASH n := by
      rw [Nat.sub_add_cancel hpos]
      exact (List.prefix_iff_eq_take.mp hp).symm
    rw [htake, Join_Split]

theorem collectFailures_fst (ms : List (Found Bytes)) (acc : List Bytes × List Bytes) :
    (collectFailures ms acc).1 = acc.1 ++ ms.map (·.val) := by
  induction ms generalizing acc with
  | nil => simp [collectFailures]
  | cons m ms ih =>
    obtain ⟨ft, ex⟩ := acc
    simp [collectFailures, ih]

theorem mem_collectFailures_snd (ms : List (Found Bytes)) (acc : List Bytes × List Bytes)
    (n : Bytes) :
    n ∈ (collectFailures ms acc).2 ↔ n ∈ acc.2 ∨ ∃ m ∈ ms, n ∈ parentPaths m.val := by
  induction ms generalizing acc with
  | nil => simp [collectFailures]
  | cons m ms ih =>
    obtain ⟨ft, ex⟩ := acc
    simp only [collectFailures, ih, List.mem_append, List.mem_cons, exists_eq_or_imp]
    tauto

theorem findFailures_eq_leafNames (buf : Bytes) :
    findFailures buf = leafNames (capturedNames buf) := by
  unfold findFailures leafNames capturedNames
  have h1 := collectFailures_fst (failReFindAll buf) ([], [])
  have h2 := mem_collectFailures_snd (failReFindAll buf) ([], [])
  generalize collectFailures (failReFindAll buf) ([], []) = r at h1 h2
  obtain ⟨ft, ex⟩ := r
  simp only [List.nil_append] at h1
  subst h1
  simp only
  apply List.filter_congr
  intro n _
  have := h2 n
  simp only [List.not_mem_nil, false_or] at this
  rw [Bool.eq_iff_iff]
  simp [this, mem_parentPaths_iff]

/-! ## Claims about `findFailures` -/

/-- C1: for every buffer, no name returned by `findFailures` is a strict prefix-path
of another returned name: the `/`-split parts of one returned name are never a
proper leading sub-sequence of the `/`-split parts of another. -/
theorem findFailures_no_ancestor_retained (buf a b : Bytes)
    (ha : a ∈ findFailures buf) (hb : b ∈ findFailures buf) :
    ¬ (Split SLASH a <+: Split SLASH b ∧ Split SLASH a ≠ Split SLASH b) := by
  rw [findFailures_eq_leafNames] at ha hb
  unfold leafNames at ha hb
  have hb1 : b ∈ capturedNames buf := List.mem_of_mem_filter hb
  have ha2 := (List.mem_filter.mp ha).2
  simp only [decide_eq_true_eq, not_exists, not_and] at ha2
  exact ha2 b hb1

set_option maxRecDepth 100000 in
/-- Witness of C1: a segment with `TestA`, `TestA/Sub1` and `TestA/Sub2`. -/
theorem findFailures_no_ancestor_retained_witness :
    ascii "TestA/Sub1" ∈ findFailures segmentTestA ∧
    ascii "TestA/Sub2" ∈ findFailures segmentTestA ∧
    ¬ (Split SLASH (ascii "TestA/Sub1") <+: Split SLASH (ascii "TestA/Sub2") ∧
        Split SLASH (ascii "TestA/Sub1") ≠ Split SLASH (ascii "TestA/Sub2")) :=
  ⟨by decide, by decide,
    findFailures_no_ancestor_retained segmentTestA (ascii "TestA/Sub1") (ascii "TestA/Sub2")
      (by decide) (by decide)⟩

/-- C2: `findFailures` returns the names captured by the failure-marker pattern, in
order of appearance and with duplicates, without exactly those that are a strict
ancestor path of a captured name; when the captured names are `TestA`,
`TestA/Sub1`, `TestA/Sub2` the result is `TestA/Sub1`, `TestA/Sub2`. -/
theorem findFailures_removes_exactly_ancestors :
    (∀ buf : Bytes, findFailures buf =
      (capturedNames buf).filter fun n =>
        decide (¬ ∃ m ∈ capturedNames buf, StrictAncestor n m)) ∧
    (∀ buf : Bytes,
      capturedNames buf = [ascii "TestA", ascii "TestA/Sub1", ascii "TestA/Sub2"] →
      findFailures buf = [ascii "TestA/Sub1", ascii "TestA/Sub2"]) := by
  refine ⟨fun buf => findFailures_eq_leafNames buf, fun buf h => ?_⟩
  rw [findFailures_eq_leafNames, h]
  decide

set_option maxRecDepth 100000 in
/-- Witness of C2: the segment of a parent test with two failing subtests. -/
theorem findFailures_removes_exactly_ancestors_witness :
    capturedNames segmentTestA
      = [ascii "TestA", ascii "TestA/Sub1", ascii "TestA/Sub2"] ∧
    findFailures segmentTestA
      = [ascii "TestA/Sub1", ascii "TestA/Sub2"] :=
  ⟨by decide, findFailures_removes_exactly_ancestors.2 segmentTestA (by decide)⟩

/-! ## `toFileName` -/

theorem ReplaceAux_single (c : Byte) (new s : Bytes) :
    ReplaceAux [c] new 0 s =
      match s with
      | [] => []
      | b :: rest => (if b = c then new else [b]) ++ ReplaceAux [c] new 0 rest := by
  cases s with
  | nil => simp [ReplaceAux]
  | cons b rest =>
    by_cases h : b = c
    · subst h; simp [ReplaceAux, List.isPrefixOf]
    · have h2 : ¬ c = b := fun e => h e.symm
      simp [ReplaceAux, List.isPrefixOf, h, h2]

theorem ReplaceAux_single_append (c : Byte) (new s t : Bytes) :
    ReplaceAux [c] new 0 (s ++ t) = ReplaceAux [c] new 0 s ++ ReplaceAux [c] new 0 t := by
  induction s with
  | nil => simp [ReplaceAux]
  | cons b s ih =>
    show ReplaceAux [c] new 0 (b :: (s ++ t)) = _
    rw [ReplaceAux_single c new (b :: (s ++ t)), ReplaceAux_single c new (b :: s)]
    simp [ih]

theorem toFileName_eq_substitute (s : Bytes) : toFileName s = substituteSeparators s := by
  induction s with
  | nil => simp [toFileName, Replace, ReplaceAux, substituteSeparators]
  | cons b s ih =>
    simp only [toFileName, Replace] at ih ⊢
    rw [ReplaceAux_single SLASH fullSolidus (b :: s)]
    simp only
    rw [ReplaceAux_single_append, ih, substituteSeparators]
    congr 1
    by_cases h1 : b = SLASH
    · simp [h1, fullSolidus, ReplaceAux, List.isPrefixOf, BACKSLASH]
    · by_cases h2 : b = BACKSLASH
      · subst h2; simp [ReplaceAux, List.isPrefixOf, BACKSLASH, SLASH]
      · have h3 : ¬ BACKSLASH = b := fun e => h2 e.symm
        simp [h1, h2, h3, ReplaceAux, List.isPrefixOf]

theorem toFileName_append (s t : Bytes) : toFileName (s ++ t) = toFileName s ++ toFileName t := by
  simp only [toFileName, Replace, ReplaceAux_single_append]

theorem substituteSeparators_no_separator (s : Bytes) :
    SLASH ∉ substituteSeparators s ∧ BACKSLASH ∉ substituteSeparators s := by
  induction s with
  | nil => simp [substituteSeparators]
  | cons b s ih =>
    simp only [substituteSeparators, List.mem_append, not_or]
    refine ⟨⟨?_, ih.1⟩, ⟨?_, ih.2⟩⟩
    · by_cases h1 : b = SLASH
      · simp [h1, fullSolidus, SLASH]
      · by_cases h2 : b = BACKSLASH
        · simp [h2, fullReverseSolidus, SLASH, BACKSLASH]
        · simp [h1, h2]; exact fun e => h1 e.symm
    · by_cases h1 : b = SLASH
      · simp [h1, fullSolidus, BACKSLASH]
      · by_cases h2 : b = BACKSLASH
        · simp [h2, fullReverseSolidus, SLASH, BACKSLASH]
        · simp [h1, h2]; exact fun e => h2 e.symm

/-- The head of a substituted name is the head of the name or the first byte of a
substitute. -/
theorem substituteSeparators_head (c x : Byte) (r r1 : Bytes)
    (h : substituteSeparators (c :: r) = x :: r1) :
    (c = x ∧ r1 = substituteSeparators r) ∨ x = 239 := by
  simp only [substituteSeparators] at h
  by_cases h1 : c = SLASH
  · simp [h1, fullSolidus] at h; exact Or.inr h.1.symm
  · by_cases h2 : c = BACKSLASH
    · simp [h2, fullReverseSolidus, SLASH, BACKSLASH] at h; exact Or.inr h.1.symm
    · simp [h1, h2] at h; exact Or.inl ⟨h.1, h.2.symm⟩

theorem restore_substitute (s : Bytes)
    (h1 : ¬ fullSolidus <:+: s) (h2 : ¬ fullReverseSolidus <:+: s) :
    restoreSeparators (substituteSeparators s) = s := by
  induction s with
  | nil => simp [substituteSeparators, restoreSeparators]
  | cons b s ih =>
    have t1 : ¬ fullSolidus <:+: s := fun h => h1 (h.trans (List.suffix_cons b s).isInfix)
    have t2 : ¬ fullReverseSolidus <:+: s :=
      fun h => h2 (h.trans (List.suffix_cons b s).isInfix)
    have ih := ih t1 t2
    by_cases hs : b = SLASH
    · subst hs
      simp [substituteSeparators, fullSolidus, restoreSeparators, ih]
    · by_cases hb : b = BACKSLASH
      · subst hb
        simp [substituteSeparators, fullReverseSolidus, restoreSeparators, ih, SLASH, BACKSLASH]
      · have e : substituteSeparators (b :: s) = b :: substituteSeparators s := by
          simp [substituteSeparators, hs, hb]
        rw [e]
        -- no substitute starts at the copied byte
        have key : ∀ x y r, substituteSeparators s = x :: y :: r →
            ¬ (b = 239 ∧ x = 188 ∧ (y = 143 ∨ y = 188)) := by
          intro x y r hxy ⟨hb1, hx, hy⟩
          cases s with
          | nil => simp [substituteSeparators] at hxy
          | cons c s1 =>
            rcases substituteSeparators_head c x s1 (y :: r) hxy with ⟨hc, hr⟩ | hx239
            · cases s1 with
              | nil => simp [substituteSeparators] at hr
              | cons d s2 =>
                rcases substituteSeparators_head d y s2 r hr.symm with ⟨hd, _⟩ | hy239
                · subst hb1 hc hd hx
                  rcases hy with hy | hy
                  · subst hy
                    exact h1 ⟨[], s2, by simp [fullSolidus]⟩
                  · subst hy
                    exact h2 ⟨[], s2, by simp [fullReverseSolidus]⟩
                · rw [hy239] at hy
                  exact absurd hy (by decide)
            · rw [hx239] at hx
              exact absurd hx (by decide)
        cases hsub : substituteSeparators s with
        | nil => rw [hsub] at ih; rw [← ih]; simp [restoreSeparators]
        | cons x r0 =>
          cases r0 with
          | nil => rw [hsub] at ih; rw [← ih]; simp [restoreSeparators]
          | cons y r =>
            have k := key x y r hsub
            rw [hsub] at ih
            have c1 : ¬ (b = 239 ∧ x = 188 ∧ y = 143) := fun ⟨a, b1, c⟩ => k ⟨a, b1, Or.inl c⟩
            have c2 : ¬ (b = 239 ∧ x = 188 ∧ y = 188) := fun ⟨a, b1, c⟩ => k ⟨a, b1, Or.inr c⟩
            rw [restoreSeparators]
            simp only [c1, c2, if_false]
            rw [ih]

theorem ExtAux_length_le (acc l : Bytes) : (ExtAux acc l).length ≤ acc.length + l.length := by
  induction l generalizing acc with
  | nil => simp [ExtAux]
  | cons b l ih =>
    simp only [ExtAux]
    split
    · simp
    · split
      · simp
      · have := ih (b :: acc)
        simp only [List.length_cons] at this ⊢
        omega

theorem Ext_length_le (path : Bytes) : (Ext path).length ≤ path.length := by
  have := ExtAux_length_le [] path.reverse
  simpa [Ext] using this

theorem slice_eq (b : Bytes) (lo hi : Nat) (h1 : lo ≤ hi) (h2 : hi ≤ b.length) :
    slice b lo hi = some ((b.drop lo).take (hi - lo)) := by
  simp [slice, h1, h2]

theorem saveFailure_eq (outputDir zipFile name module failedTest buf : Bytes) :
    saveFailure outputDir zipFile name module failedTest buf =
      some ⟨[outputDir, toFileName module, toFileName failedTest],
        toFileName (name ++ ascii "-" ++ archiveBaseNameWithoutExt zipFile) ++ ascii ".txt",
        buf⟩ := by
  have h := Ext_length_le (Base zipFile)
  have htxt : toFileName (ascii ".txt") = ascii ".txt" := by decide
  simp only [saveFailure, h, if_true, slice, Nat.zero_le, true_and, Nat.sub_le,
    List.drop_zero, Nat.sub_zero]
  rw [toFileName_append _ (ascii ".txt"), htxt]
  rfl

/-! ## Claims about `toFileName` and `saveFailure` -/

/-- C5 (as the claim states it, refuted): for archive `logs.zip`, member
`job1/log.txt`, module `github.com/x/b` and failure name `TestFoo`, the file that
`saveFailure` writes is not the one of the stated path construction: its base
name is built from the member name, not from the failure name. -/
theorem saveFailure_not_spec_path :
    saveFailure (ascii "output") (ascii "logs.zip") (ascii "job1/log.txt")
        (ascii "github.com/x/b") (ascii "TestFoo") (ascii "FAIL") ≠
      some (specSavedFile (ascii "output") (ascii "logs.zip") (ascii "github.com/x/b")
        (ascii "TestFoo") (ascii "FAIL")) := by
  decide

/-- C5 (amended): for every archive path, member name, module path, failure name and
segment, `saveFailure` writes the segment to
`<outputRoot>/<toFileName(module)>/<toFileName(failureName)>/<toFileName(memberName + "-" + archive base name without its extension)>.txt`:
the base name of the file is built from the member name and the archive's base
name, and the failure name only names the directory. -/
theorem saveFailure_path (outputDir zipFile name module failedTest buf : Bytes) :
    saveFailure outputDir zipFile name module failedTest buf =
      some { dir := [outputDir, toFileName module, toFileName failedTest]
             file := toFileName (name ++ ascii "-" ++ archiveBaseNameWithoutExt zipFile)
                      ++ ascii ".txt"
             content := buf } := by
  have hext : (Ext (Base zipFile)).length ≤ (Base zipFile).length := Ext_length_le _
  have htxt : toFileName (ascii ".txt") = ascii ".txt" := by decide
  unfold saveFailure
  simp only [hext, if_true]
  rw [slice_eq _ _ _ (Nat.zero_le _) (Nat.sub_le _ _)]
  simp only [List.drop_zero, Nat.sub_zero]
  rw [toFileName_append _ (ascii ".txt"), htxt]
  rfl

/-- C8: for every string, `toFileName` yields a string with neither `/` nor `\`: the
input with every `/` replaced by the full-width solidus, every `\` by the
full-width reverse solidus, and every other byte unchanged. -/
theorem toFileName_no_separator (s : Bytes) :
    SLASH ∉ toFileName s ∧ BACKSLASH ∉ toFileName s ∧
      toFileName s = substituteSeparators s := by
  rw [toFileName_eq_substitute]
  exact ⟨(substituteSeparators_no_separator s).1, (substituteSeparators_no_separator s).2, rfl⟩

/-- C9: on strings that contain neither full-width substitute, `toFileName` is
injective, so names that differ only in their separators stay different; in
particular `a/b` and `a\b` get different file names. -/
theorem toFileName_injective :
    (∀ s t : Bytes, ¬ fullSolidus <:+: s → ¬ fullReverseSolidus <:+: s →
      ¬ fullSolidus <:+: t → ¬ fullReverseSolidus <:+: t →
      toFileName s = toFileName t → s = t) ∧
    toFileName (ascii "a/b") ≠ toFileName (ascii "a\\b") := by
  refine ⟨fun s t hs1 hs2 ht1 ht2 h => ?_, by decide⟩
  rw [toFileName_eq_substitute, toFileName_eq_substitute] at h
  rw [← restore_substitute s hs1 hs2, ← restore_substitute t ht1 ht2, h]

/-- Witness of C9: the hypotheses hold of `a/b`. -/
theorem toFileName_injective_witness :
    ¬ fullSolidus <:+: ascii "a/b" ∧ ¬ fullReverseSolidus <:+: ascii "a/b" ∧
    toFileName (ascii "a/b") = toFileName (ascii "a/b") ∧ ascii "a/b" = ascii "a/b" :=
  ⟨by decide, by decide, rfl,
    toFileName_injective.1 (ascii "a/b") (ascii "a/b")
      (by decide) (by decide) (by decide) (by decide) rfl⟩

/-! ## The matchers stay inside their input -/

theorem matchSeq_length (ps : List (Byte → Bool)) (s r : Bytes)
    (h : matchSeq ps s = some r) : s.length = ps.length + r.length := by
  induction ps generalizing s with
  | nil => simp [matchSeq] at h; subst h; simp
  | cons p ps ih =>
    cases s with
    | nil => simp [matchSeq] at h
    | cons b s =>
      simp only [matchSeq] at h
      split at h
      · have := ih s h
        simp only [List.length_cons]
        omega
      · exact absurd h (by simp)

theorem takeWhile_dropWhile_length (p : Byte → Bool) (l : Bytes) :
    (l.takeWhile p).length + (l.dropWhile p).length = l.length := by
  induction l with
  | nil => simp
  | cons b l ih =>
    by_cases h : p b
    · simp [List.takeWhile_cons, List.dropWhile_cons, h]; omega
    · simp [List.takeWhile_cons, List.dropWhile_cons, h]

theorem matchStatus_length (s r : Bytes) (h : matchStatus s = some r) :
    s.length = 4 + r.length := by
  unfold matchStatus at h
  have n1 : (litSeq "ok  ").length = 4 := rfl
  have n2 : (litSeq "FAIL").length = 4 := rfl
  have n3 : (litSeq "?   ").length = 4 := rfl
  cases h1 : matchSeq (litSeq "ok  ") s with
  | some r1 =>
    rw [h1] at h
    simp only [Option.orElse] at h
    have := matchSeq_length _ _ _ h1
    simp only [Option.some.injEq] at h
    subst h
    omega
  | none =>
    rw [h1] at h
    simp only [Option.orElse] at h
    cases h2 : matchSeq (litSeq "FAIL") s with
    | some r2 =>
      rw [h2] at h
      simp only [Option.some.injEq] at h
      subst h
      have := matchSeq_length _ _ _ h2
      omega
    | none =>
      rw [h2] at h
      have := matchSeq_length _ _ _ h
      omega

theorem matchSplit_bounds (s : Bytes) (len : Nat) (g : SplitGroups)
    (h : matchSplit s = some (len, g)) :
    0 < len ∧ len ≤ s.length ∧ g.g1s ≤ g.g1e ∧ g.g1e ≤ g.g2s ∧ g.g2s ≤ g.g2e ∧
      g.g2e ≤ len := by
  unfold matchSplit at h
  cases h1 : matchStatus s with
  | none => rw [h1] at h; simp at h
  | some r =>
    rw [h1] at h
    simp only at h
    have n1 : (litSeq "\t").length = 1 := rfl
    cases h2 : matchSeq (litSeq "\t") r with
    | none => rw [h2] at h; simp at h
    | some r1 =>
      rw [h2] at h
      simp only at h
      split at h
      · simp at h
      · cases h3 : matchSeq (litSeq "\t") (List.dropWhile (fun x => x != TAB) r1) with
        | none => rw [h3] at h; simp at h
        | some r2 =>
          rw [h3] at h
          simp only [Option.some.injEq, Prod.mk.injEq] at h
          obtain ⟨hl, hg⟩ := h
          subst hl hg
          have e1 := matchStatus_length _ _ h1
          have e2 := matchSeq_length _ _ _ h2
          have e3 := matchSeq_length _ _ _ h3
          have e4 := takeWhile_dropWhile_length (fun x => x != TAB) r1
          have e5 := takeWhile_dropWhile_length (fun x => x != NL) r2
          refine ⟨by omega, by omega, by simp, by simp, by simp, by simp; omega⟩

/-! ## The matches of `FindAll` lie one after the other -/

theorem FoundChain_mono {α : Type} (hi lo lo1 : Nat) (fs : List (Found α))
    (h : FoundChain hi lo fs) (hle : lo1 ≤ lo) : FoundChain hi lo1 fs := by
  cases fs with
  | nil => trivial
  | cons f fs =>
    obtain ⟨h1, h2, h3, h4⟩ := h
    exact ⟨Nat.le_trans hle h1, h2, h3, h4⟩

theorem findAllAux_chain {α : Type} (m : Bytes → Option (Nat × α))
    (hm : ∀ s len a, m s = some (len, a) → 0 < len ∧ len ≤ s.length)
    (l : Bytes) (pos : Nat) (bol : Bool) (skip : Nat) :
    FoundChain (pos + l.length) (pos + skip) (findAllAux m pos bol skip l) := by
  induction l generalizing pos bol skip with
  | nil => simp [findAllAux, FoundChain]
  | cons b rest ih =>
    cases skip with
    | succ k =>
      simp only [findAllAux]
      have := ih (pos + 1) (b == 10) k
      simp only [List.length_cons]
      rw [show pos + (rest.length + 1) = pos + 1 + rest.length by omega,
        show pos + (k + 1) = pos + 1 + k by omega]
      exact this
    | zero =>
      cases bol with
      | false =>
        simp only [findAllAux]
        have := ih (pos + 1) (b == 10) 0
        simp only [List.length_cons]
        rw [show pos + (rest.length + 1) = pos + 1 + rest.length by omega]
        exact FoundChain_mono _ _ _ _ this (by omega)
      | true =>
        simp only [findAllAux]
        cases hmb : m (b :: rest) with
        | none =>
          simp only
          have := ih (pos + 1) (b == 10) 0
          simp only [List.length_cons]
          rw [show pos + (rest.length + 1) = pos + 1 + rest.length by omega]
          exact FoundChain_mono _ _ _ _ this (by omega)
        | some r =>
          obtain ⟨len, a⟩ := r
          simp only
          obtain ⟨hpos, hlen⟩ := hm _ _ _ hmb
          simp only [List.length_cons] at hlen ⊢
          show pos + 0 ≤ pos ∧ pos < pos + len ∧ pos + len ≤ pos + (rest.length + 1) ∧
            FoundChain (pos + (rest.length + 1)) (pos + len) _
          refine ⟨by omega, by omega, by omega, ?_⟩
          have := ih (pos + 1) (b == 10) (len - 1)
          rw [show pos + (rest.length + 1) = pos + 1 + rest.length by omega,
            show pos + len = pos + 1 + (len - 1) by omega]
          exact this

theorem findAllAux_forall {α : Type} (m : Bytes → Option (Nat × α)) (Q : Nat → α → Prop)
    (hm : ∀ s len a, m s = some (len, a) → Q len a)
    (l : Bytes) (pos : Nat) (bol : Bool) (skip : Nat) :
    ∀ f ∈ findAllAux m pos bol skip l, Q (f.stop - f.start) f.val := by
  induction l generalizing pos bol skip with
  | nil => simp [findAllAux]
  | cons b rest ih =>
    cases skip with
    | succ k => simp only [findAllAux]; exact ih _ _ _
    | zero =>
      cases bol with
      | false => simp only [findAllAux]; exact ih _ _ _
      | true =>
        simp only [findAllAux]
        cases hmb : m (b :: rest) with
        | none => simp only; exact ih _ _ _
        | some r =>
          obtain ⟨len, a⟩ := r
          simp only
          intro f hf
          rcases List.mem_cons.mp hf with rfl | hf
          · simp only [Nat.add_sub_cancel_left]
            exact hm _ _ _ hmb
          · exact ih _ _ _ f hf

theorem WellPlaced_of_chain (hi lo : Nat) (fs : List (Found SplitGroups))
    (hc : FoundChain hi lo fs)
    (hq : ∀ f ∈ fs, f.val.g1s ≤ f.val.g1e ∧ f.val.g1e ≤ f.val.g2s ∧
      f.val.g2s ≤ f.val.g2e ∧ f.val.g2e ≤ f.stop - f.start) :
    WellPlaced hi lo (fs.map fun f =>
      ⟨f.start, f.stop, f.start + f.val.g1s, f.start + f.val.g1e,
        f.start + f.val.g2s, f.start + f.val.g2e⟩) := by
  induction fs generalizing lo with
  | nil => trivial
  | cons f fs ih =>
    obtain ⟨h1, h2, h3, h4⟩ := hc
    obtain ⟨q1, q2, q3, q4⟩ := hq f (List.mem_cons_self _ _)
    simp only [List.map_cons, WellPlaced]
    refine ⟨h1, by omega, by omega, by omega, by omega, by omega, h3, ?_⟩
    exact ih f.stop h4 (fun g hg => hq g (List.mem_cons_of_mem _ hg))

theorem splitReFindAll_wellPlaced (b : Bytes) : WellPlaced b.length 0 (splitReFindAll b) := by
  unfold splitReFindAll findAll
  apply WellPlaced_of_chain
  · have := findAllAux_chain matchSplit
      (fun s len a h => ⟨(matchSplit_bounds s len a h).1, (matchSplit_bounds s len a h).2.1⟩)
      b 0 true 0
    simpa using this
  · exact findAllAux_forall matchSplit
      (fun len g => g.g1s ≤ g.g1e ∧ g.g1e ≤ g.g2s ∧ g.g2s ≤ g.g2e ∧ g.g2e ≤ len)
      (fun s len a h => (matchSplit_bounds s len a h).2.2) b 0 true 0

/-! ## The loop of `parseFile` -/

theorem parsePart_eq (outputDir zipFile name b : Bytes) (prev : Nat) (part : SplitMatch)
    (h1 : prev ≤ part.stop) (h2 : part.g1s ≤ part.g1e) (h3 : part.g1e ≤ b.length)
    (h4 : part.g2s ≤ part.g2e) (h5 : part.g2e ≤ b.length) (h6 : part.stop ≤ b.length) :
    parsePart outputDir zipFile name b prev part =
      some (((saveCallOf b (part, prev)).toList).map fun c =>
        ⟨[outputDir, toFileName c.module, toFileName c.failedTest],
          toFileName (name ++ ascii "-" ++ archiveBaseNameWithoutExt zipFile) ++ ascii ".txt",
          c.content⟩) := by
  unfold parsePart saveCallOf
  rw [slice_eq b _ _ h2 h3, slice_eq b _ _ h4 h5]
  simp only [statusOf, moduleOf, windowOf]
  by_cases hst : TrimSpace (List.take (part.g1e - part.g1s) (List.drop part.g1s b)) = ascii "FAIL"
  · simp only [hst, if_true]
    rw [slice_eq b _ _ h1 h6]
    simp only
    cases hf : findFailures (List.take (part.stop - prev) (List.drop prev b)) with
    | nil => simp
    | cons t ts => simp [saveFailure_eq]
  · simp [hst]

theorem parseLoop_eq (outputDir zipFile name b : Bytes) (parts : List SplitMatch) (prev : Nat)
    (h : WellPlaced b.length prev parts) :
    parseLoop outputDir zipFile name b prev parts =
      some (((markerWindows prev parts).filterMap (saveCallOf b)).map fun c =>
        ⟨[outputDir, toFileName c.module, toFileName c.failedTest],
          toFileName (name ++ ascii "-" ++ archiveBaseNameWithoutExt zipFile) ++ ascii ".txt",
          c.content⟩) := by
  induction parts generalizing prev with
  | nil => simp [parseLoop, markerWindows]
  | cons p ps ih =>
    obtain ⟨w1, w2, w3, w4, w5, w6, w7, w8⟩ := h
    have hp := parsePart_eq outputDir zipFile name b prev p (by omega) w3 (by omega) w5
      (by omega) w7
    have hrest := ih p.stop w8
    simp only [parseLoop, hp, hrest]
    simp only [markerWindows, List.map_cons, List.zip_cons_cons, List.filterMap_cons]
    cases saveCallOf b (p, prev) with
    | none => simp
    | some c => simp

theorem parseFile_eq (outputDir zipFile name buf : Bytes) :
    parseFile outputDir zipFile name buf =
      some ⟨(saveCalls (cleanBuffer buf)).map fun c =>
        ⟨[outputDir, toFileName c.module, toFileName c.failedTest],
          toFileName (name ++ ascii "-" ++ archiveBaseNameWithoutExt zipFile) ++ ascii ".txt",
          c.content⟩, none⟩ := by
  unfold parseFile
  simp only
  rw [parseLoop_eq _ _ _ _ _ _ (splitReFindAll_wellPlaced (cleanBuffer buf))]
  by_cases h0 : (splitReFindAll (cleanBuffer buf)).length = 0
  · have : splitReFindAll (cleanBuffer buf) = [] := List.length_eq_zero.mp h0
    simp [saveCalls, this, markerWindows]
  · simp [h0, saveCalls]

/-! ## Claims about `parseFile` -/

theorem mem_markerWindows_fst (first : Nat) (parts : List SplitMatch) (mw : SplitMatch × Nat)
    (h : mw ∈ markerWindows first parts) : mw.1 ∈ parts := by
  obtain ⟨p, lo⟩ := mw
  exact (List.of_mem_zip h).1

set_option maxRecDepth 100000 in
/-- C3: when no marker of a member has status `FAIL` (the markers are the matches of
the status-marker pattern in the content without carriage returns and
timestamps), `parseFile` saves no file and returns no error; so it is for a
content without any marker, and for the member that is a single `?` line. -/
theorem parseFile_without_fail_marker :
    (∀ outputDir zipFile name buf : Bytes,
      (∀ part ∈ splitReFindAll (cleanBuffer buf),
        statusOf (cleanBuffer buf) part ≠ ascii "FAIL") →
      parseFile outputDir zipFile name buf = some ⟨[], none⟩) ∧
    (∀ outputDir zipFile name buf : Bytes,
      splitReFindAll (cleanBuffer buf) = [] →
      parseFile outputDir zipFile name buf = some ⟨[], none⟩) ∧
    (∀ outputDir zipFile name : Bytes,
      parseFile outputDir zipFile name noTestFilesLog = some ⟨[], none⟩) := by
  have key : ∀ outputDir zipFile name buf : Bytes,
      (∀ part ∈ splitReFindAll (cleanBuffer buf),
        statusOf (cleanBuffer buf) part ≠ ascii "FAIL") →
      parseFile outputDir zipFile name buf = some ⟨[], none⟩ := by
    intro outputDir zipFile name buf h
    rw [parseFile_eq]
    have : saveCalls (cleanBuffer buf) = [] := by
      unfold saveCalls
      rw [List.filterMap_eq_nil_iff]
      intro mw hmw
      have hst := h mw.1 (mem_markerWindows_fst _ _ _ hmw)
      simp [saveCallOf, hst]
    rw [this]
    rfl
  refine ⟨key, ?_, ?_⟩
  · intro outputDir zipFile name buf h
    apply key
    rw [h]
    intro part hp
    exact absurd hp (List.not_mem_nil _)
  · intro outputDir zipFile name
    apply key
    decide

set_option maxRecDepth 100000 in
/-- Witness of C3: the member that is a single `?` line has a marker and no `FAIL`
marker. -/
theorem parseFile_without_fail_marker_witness :
    (splitReFindAll (cleanBuffer noTestFilesLog)).length = 1 ∧
    (∀ part ∈ splitReFindAll (cleanBuffer noTestFilesLog),
      statusOf (cleanBuffer noTestFilesLog) part ≠ ascii "FAIL") ∧
    parseFile (ascii "output") (ascii "logs.zip") (ascii "job1/log.txt") noTestFilesLog
      = some ⟨[], none⟩ :=
  ⟨by decide, by decide,
    parseFile_without_fail_marker.1 (ascii "output") (ascii "logs.zip") (ascii "job1/log.txt")
      noTestFilesLog (by decide)⟩

set_option maxRecDepth 100000 in
/-- C6 (as the claim states it, refuted): for the member of the scenario, with the
`--- FAIL: TestFoo` line after the `FAIL` line, `parseFile` saves no file at all,
whether the status tokens are padded as `go test` pads them or followed by a tab
at once. -/
theorem parseFile_scenario_saves_nothing :
    parseFile (ascii "output") (ascii "logs.zip") (ascii "job1/log.txt") scenarioLog
      = some ⟨[], none⟩ ∧
    parseFile (ascii "output") (ascii "logs.zip") (ascii "job1/log.txt") scenarioLogTab
      = some ⟨[], none⟩ := by
  constructor <;> decide

set_option maxRecDepth 100000 in
/-- C6 (amended): for the member `job1/log.txt` of the scenario `parseFile` saves no
file, as the `--- FAIL: TestFoo` line follows the last marker line.  With that line
before the `FAIL` line of module `github.com/x/b`, `parseFile` saves exactly one
file, in the directory of module `github.com/x/b` and test `TestFoo`, named
after the member and the archive's base name, whose content is the window of the
`FAIL` marker, from the end of the `ok` line to the end of the `FAIL` line, without
timestamps. -/
theorem parseFile_scenario_reordered (outputDir zipFile : Bytes) :
    parseFile outputDir zipFile (ascii "job1/log.txt") scenarioLog = some ⟨[], none⟩ ∧
    parseFile outputDir zipFile (ascii "job1/log.txt") scenarioReordered =
      some ⟨[{ dir := [outputDir, toFileName (ascii "github.com/x/b"), ascii "TestFoo"]
               file := toFileName (ascii "job1/log.txt-" ++ archiveBaseNameWithoutExt zipFile)
                        ++ ascii ".txt"
               content := ascii "\n    --- FAIL: TestFoo (0.00s)\nFAIL\tgithub.com/x/b\t0.2s" }],
        none⟩ := by
  have h1 : saveCalls (cleanBuffer scenarioLog) = [] := by decide
  have h2 : saveCalls (cleanBuffer scenarioReordered) =
      [⟨ascii "github.com/x/b", ascii "TestFoo",
        ascii "\n    --- FAIL: TestFoo (0.00s)\nFAIL\tgithub.com/x/b\t0.2s"⟩] := by decide
  have h3 : toFileName (ascii "TestFoo") = ascii "TestFoo" := by decide
  have h4 : ascii "job1/log.txt" ++ ascii "-" = ascii "job1/log.txt-" := by decide
  rw [parseFile_eq, parseFile_eq, h1, h2]
  simp only [List.map_cons, List.map_nil, h3, h4, true_and]

/-- C7: for every member content `parseFile` returns without error, and its saves
are, in order, one call of `saveFailure` for each `FAIL` marker whose search window
`W` has a non-empty `findFailures(W)`, and none for any other marker; the call has
the marker's module path, the first element of `findFailures(W)` as failure name
and the whole of `W` as content.  The window of a marker runs from the end of the
marker before it (from offset 0 for the first marker) to its own end.  For the member
with the unrelated failures `TestA` and `TestB` in one window, the one save is
named after `TestA` and holds the whole window. -/
theorem parseFile_saves_first_failure_per_marker :
    (∀ outputDir zipFile name buf : Bytes,
      ∃ saved, parseFile outputDir zipFile name buf = some ⟨saved, none⟩ ∧
        saved.map some =
          ((markerWindows 0 (splitReFindAll (cleanBuffer buf))).filterMap fun mw =>
            if statusOf (cleanBuffer buf) mw.1 = ascii "FAIL" then
              match findFailures (windowOf (cleanBuffer buf) mw.2 mw.1) with
              | [] => none
              | failedTest :: _ =>
                some (saveFailure outputDir zipFile name (moduleOf (cleanBuffer buf) mw.1)
                  failedTest (windowOf (cleanBuffer buf) mw.2 mw.1))
            else none)) ∧
    findFailures (ascii
        "--- FAIL: TestA (0.00s)\n--- FAIL: TestB (0.00s)\nFAIL\tgithub.com/x/b\t0.2s")
      = [ascii "TestA", ascii "TestB"] ∧
    (∀ outputDir zipFile name : Bytes,
      parseFile outputDir zipFile name twoLeavesLog =
        some ⟨[{ dir := [outputDir, toFileName (ascii "github.com/x/b"),
                          toFileName (ascii "TestA")]
                 file := toFileName (name ++ ascii "-" ++ archiveBaseNameWithoutExt zipFile)
                          ++ ascii ".txt"
                 content := ascii
                  "--- FAIL: TestA (0.00s)\n--- FAIL: TestB (0.00s)\nFAIL\tgithub.com/x/b\t0.2s" }],
          none⟩) := by
  refine ⟨?_, by decide, ?_⟩
  · intro outputDir zipFile name buf
    refine ⟨_, parseFile_eq outputDir zipFile name buf, ?_⟩
    unfold saveCalls
    generalize markerWindows 0 (splitReFindAll (cleanBuffer buf)) = mws
    induction mws with
    | nil => simp
    | cons mw mws ih =>
      simp only [List.filterMap_cons, saveCallOf]
      by_cases hst : statusOf (cleanBuffer buf) mw.1 = ascii "FAIL"
      · simp only [hst, if_true]
        cases hf : findFailures (windowOf (cleanBuffer buf) mw.2 mw.1) with
        | nil => simpa [saveCallOf] using ih
        | cons t ts =>
          simp only [List.map_cons, ih, saveFailure_eq]
      · simpa [hst, saveCallOf] using ih
  · intro outputDir zipFile name
    have h : saveCalls (cleanBuffer twoLeavesLog) =
        [⟨ascii "github.com/x/b", ascii "TestA", ascii
          "--- FAIL: TestA (0.00s)\n--- FAIL: TestB (0.00s)\nFAIL\tgithub.com/x/b\t0.2s"⟩] := by
      decide
    rw [parseFile_eq, h]
    rfl

set_option maxRecDepth 100000 in
/-- C10 (as the claim states it, refuted): two members that differ only in what
precedes the first marker line, a `FAIL` marker.  The one with a `--- FAIL: TestFoo`
line before the marker gets a file saved, whose content starts with that line;
the one that starts with the marker line gets none. -/
theorem parseFile_inspects_before_first_marker :
    (splitReFindAll (cleanBuffer (failurePreamble ++ failMarkerOnly))).map (·.start)
      = [failurePreamble.length] ∧
    capturedNames failMarkerOnly = [] ∧
    parseFile (ascii "output") (ascii "logs.zip") (ascii "job1/log.txt") failMarkerOnly
      = some ⟨[], none⟩ ∧
    parseFile (ascii "output") (ascii "logs.zip") (ascii "job1/log.txt")
        (failurePreamble ++ failMarkerOnly)
      = some ⟨[{ dir := [ascii "output", toFileName (ascii "github.com/x/b"), ascii "TestFoo"]
                 file := toFileName (ascii "job1/log.txt-logs.txt")
                 content := ascii "    --- FAIL: TestFoo (0.00s)\nFAIL\tgithub.com/x/b\t0.2s" }],
          none⟩ := by
  refine ⟨by decide, by decide, by decide, by decide⟩

/-- C10 (amended): the search window of the first marker starts at offset 0 of the
cleaned buffer, so what precedes the first marker line is searched and saved with
it: for every member content whose first marker has status `FAIL` and whose bytes
up to the end of that marker line hold a failure name, the first file that
`parseFile` saves is the one of that marker's module and of the first such name,
and its content is the cleaned buffer from offset 0 to the end of the marker
line. -/
theorem parseFile_first_window_from_start (outputDir zipFile name buf : Bytes)
    (p : SplitMatch) (ps : List SplitMatch) (t : Bytes) (ts : List Bytes)
    (hparts : splitReFindAll (cleanBuffer buf) = p :: ps)
    (hfail : statusOf (cleanBuffer buf) p = ascii "FAIL")
    (hnames : findFailures ((cleanBuffer buf).take p.stop) = t :: ts) :
    ∃ more, parseFile outputDir zipFile name buf =
      some ⟨{ dir := [outputDir, toFileName (moduleOf (cleanBuffer buf) p), toFileName t]
              file := toFileName (name ++ ascii "-" ++ archiveBaseNameWithoutExt zipFile)
                        ++ ascii ".txt"
              content := (cleanBuffer buf).take p.stop } :: more, none⟩ := by
  rw [parseFile_eq]
  have hw : windowOf (cleanBuffer buf) 0 p = (cleanBuffer buf).take p.stop := by
    simp [windowOf]
  have hcall : saveCallOf (cleanBuffer buf) (p, 0) =
      some ⟨moduleOf (cleanBuffer buf) p, t, (cleanBuffer buf).take p.stop⟩ := by
    simp [saveCallOf, hfail, hw, hnames]
  simp only [saveCalls, hparts, markerWindows, List.map_cons, List.zip_cons_cons,
    List.filterMap_cons, hcall]
  exact ⟨_, rfl⟩

set_option maxRecDepth 100000 in
/-- Witness of C10 (amended): the member with a failure line before its only marker. -/
theorem parseFile_first_window_from_start_witness :
    splitReFindAll (cleanBuffer (failurePreamble ++ failMarkerOnly)) = [⟨30, 54, 30, 34, 35, 49⟩] ∧
    ∃ more, parseFile (ascii "output") (ascii "logs.zip") (ascii "job1/log.txt")
        (failurePreamble ++ failMarkerOnly) =
      some ⟨{ dir := [ascii "output",
                toFileName (moduleOf (cleanBuffer (failurePreamble ++ failMarkerOnly))
                  ⟨30, 54, 30, 34, 35, 49⟩),
                toFileName (ascii "TestFoo")]
              file := toFileName (ascii "job1/log.txt" ++ ascii "-" ++
                        archiveBaseNameWithoutExt (ascii "logs.zip")) ++ ascii ".txt"
              content := (cleanBuffer (failurePreamble ++ failMarkerOnly)).take 54 } :: more,
        none⟩ :=
  ⟨by decide,
    parseFile_first_window_from_start (ascii "output") (ascii "logs.zip") (ascii "job1/log.txt")
      (failurePreamble ++ failMarkerOnly) ⟨30, 54, 30, 34, 35, 49⟩ [] (ascii "TestFoo") []
      (by decide) (by decide) (by decide)⟩

/-! ## Timestamp stripping -/

theorem matchSeq_firstLine (ps : List (Byte → Bool)) (hps : ∀ p ∈ ps, p 10 = false)
    (s : Bytes) : matchSeq ps (firstLine s) = (matchSeq ps s).map firstLine := by
  induction ps generalizing s with
  | nil => simp [matchSeq]
  | cons p ps ih =>
    have hp : p 10 = false := hps p (List.mem_cons_self _ _)
    have hrest : ∀ q ∈ ps, q 10 = false := fun q hq => hps q (List.mem_cons_of_mem _ hq)
    cases s with
    | nil => simp [matchSeq, firstLine]
    | cons b s =>
      by_cases hb : b = 10
      · subst hb
        simp [matchSeq, firstLine, hp]
      · have e : firstLine (b :: s) = b :: firstLine s := by
          simp [firstLine, List.takeWhile_cons, hb]
        rw [e]
        simp only [matchSeq]
        split
        · exact ih hrest s
        · rfl

theorem takeWhile_isDigit_firstLine (s : Bytes) :
    (firstLine s).takeWhile isDigit = s.takeWhile isDigit := by
  induction s with
  | nil => simp [firstLine]
  | cons b s ih =>
    by_cases hb : b = 10
    · subst hb
      simp [firstLine, List.takeWhile_cons, isDigit]
    · have e : firstLine (b :: s) = b :: firstLine s := by
        simp [firstLine, List.takeWhile_cons, hb]
      rw [e]
      simp only [List.takeWhile_cons, ih]

theorem dropWhile_isDigit_firstLine (s : Bytes) :
    (firstLine s).dropWhile isDigit = firstLine (s.dropWhile isDigit) := by
  induction s with
  | nil => simp [firstLine]
  | cons b s ih =>
    by_cases hb : b = 10
    · subst hb
      simp [firstLine, List.takeWhile_cons, List.dropWhile_cons, isDigit]
    · have e : firstLine (b :: s) = b :: firstLine s := by
        simp [firstLine, List.takeWhile_cons, hb]
      rw [e]
      simp only [List.dropWhile_cons]
      split
      · exact ih
      · exact e.symm

theorem timestampTail_reject : ∀ p ∈ timestampTail, p 10 = false := by decide

theorem timestampHead_reject : ∀ p ∈ timestampHead, p 10 = false := by decide

theorem timestampPlain_firstLine (r : Bytes) :
    timestampPlain (firstLine r) = timestampPlain r := by
  unfold timestampPlain
  rw [matchSeq_firstLine _ timestampTail_reject]
  cases matchSeq timestampTail r <;> rfl

theorem timestampFraction_firstLine (r : Bytes) :
    timestampFraction (firstLine r) = timestampFraction r := by
  cases r with
  | nil => rfl
  | cons b r1 =>
    by_cases hb : b = 10
    · subst hb
      simp [firstLine, timestampFraction]
    · have e : firstLine (b :: r1) = b :: firstLine r1 := by
        simp [firstLine, List.takeWhile_cons, hb]
      rw [e]
      simp only [timestampFraction]
      rw [dropWhile_isDigit_firstLine, takeWhile_isDigit_firstLine,
        matchSeq_firstLine _ timestampTail_reject]
      cases matchSeq timestampTail (List.dropWhile isDigit r1) <;> rfl

/-- A timestamp lies within one line: the matcher sees the first line only. -/
theorem matchTimestamp_firstLine (s : Bytes) :
    matchTimestamp (firstLine s) = matchTimestamp s := by
  unfold matchTimestamp
  rw [matchSeq_firstLine _ timestampHead_reject]
  cases matchSeq timestampHead s with
  | none => rfl
  | some r =>
    simp only [Option.map_some']
    rw [timestampFraction_firstLine, timestampPlain_firstLine]

theorem matchTimestamp_bounds (s : Bytes) (len : Nat) (h : matchTimestamp s = some len) :
    0 < len ∧ len ≤ s.length := by
  unfold matchTimestamp at h
  cases h1 : matchSeq timestampHead s with
  | none => rw [h1] at h; simp at h
  | some r =>
    rw [h1] at h
    simp only at h
    have e1 := matchSeq_length _ _ _ h1
    have e0 : timestampHead.length = 19 := rfl
    cases h2 : timestampFraction r with
    | some n =>
      rw [h2] at h
      simp only [Option.orElse, Option.some.injEq] at h
      subst h
      refine ⟨by omega, ?_⟩
      cases r with
      | nil => simp [timestampFraction] at h2
      | cons b r1 =>
        simp only [timestampFraction] at h2
        split at h2
        · cases h3 : matchSeq timestampTail (List.dropWhile isDigit r1) with
          | none => rw [h3] at h2; simp at h2
          | some r2 =>
            rw [h3] at h2
            simp only [Option.some.injEq] at h2
            have e3 := matchSeq_length _ _ _ h3
            have e4 := takeWhile_dropWhile_length isDigit r1
            have e5 : timestampTail.length = 2 := rfl
            simp only [List.length_cons] at e1
            omega
        · simp at h2
    | none =>
      rw [h2] at h
      simp only [Option.orElse] at h
      unfold timestampPlain at h
      cases h3 : matchSeq timestampTail r with
      | none => rw [h3] at h; simp at h
      | some r2 =>
        rw [h3] at h
        simp only [Option.some.injEq] at h
        have e3 := matchSeq_length _ _ _ h3
        have e5 : timestampTail.length = 2 := rfl
        omega

theorem removeAllAux_skip (m : Bytes → Option Nat) (l : Bytes) (k : Nat) (bol : Bool)
    (hk : k ≤ l.length) :
    ∃ bol1, removeAllAux m bol k l = removeAllAux m bol1 0 (l.drop k) := by
  induction l generalizing k bol with
  | nil =>
    have : k = 0 := by simpa using hk
    subst this
    exact ⟨bol, rfl⟩
  | cons b rest ih =>
    cases k with
    | zero => exact ⟨bol, rfl⟩
    | succ k =>
      simp only [List.length_cons] at hk
      obtain ⟨bol1, h⟩ := ih k (b == 10) (by omega)
      exact ⟨bol1, by simp only [removeAllAux, List.drop_succ_cons, h]⟩

theorem removeAllAux_no_match (m : Bytes → Option Nat) (b : Byte) (rest : Bytes)
    (h : m (b :: rest) = none) (bol : Bool) :
    removeAllAux m bol 0 (b :: rest) = b :: removeAllAux m (b == 10) 0 rest := by
  cases bol <;> simp [removeAllAux, h]

theorem firstLine_removeAllAux (m : Bytes → Option Nat) (l : Bytes) :
    firstLine (removeAllAux m false 0 l) = firstLine l := by
  induction l with
  | nil => simp [removeAllAux]
  | cons b rest ih =>
    simp only [removeAllAux]
    by_cases hb : b = 10
    · subst hb
      simp [firstLine]
    · have hb1 : (b == 10) = false := by simpa using hb
      rw [hb1]
      simp only [firstLine, List.takeWhile_cons] at ih ⊢
      rw [ih]

theorem firstLine_cons_removeAllAux (m : Bytes → Option Nat) (b : Byte) (rest : Bytes) :
    firstLine (b :: removeAllAux m (b == 10) 0 rest) = firstLine (b :: rest) := by
  by_cases hb : b = 10
  · subst hb
    simp [firstLine]
  · have hb1 : (b == 10) = false := by simpa using hb
    rw [hb1]
    have := firstLine_removeAllAux m rest
    simp only [firstLine, List.takeWhile_cons] at this ⊢
    rw [this]

theorem Fresh_suffix (bol bq : Bool) (p q : Bytes) (h : Fresh bol (p ++ q))
    (hb : bq = true → (p = [] ∧ bol = true) ∨ p.getLast? = some 10) : Fresh bq q := by
  intro pre post hq hpre len hm
  refine h (p ++ pre) post (by rw [hq, List.append_assoc]) ?_ len hm
  rcases hpre with ⟨hnil, hbq⟩ | hlast
  · subst hnil
    rcases hb hbq with ⟨hp, hbol⟩ | hp
    · exact Or.inl ⟨by simp [hp], hbol⟩
    · exact Or.inr (by simpa using hp)
  · exact Or.inr (by simp [List.getLast?_append, hlast])

theorem Fresh_tail (bol : Bool) (b : Byte) (rest : Bytes) (h : Fresh bol (b :: rest)) :
    Fresh (b == 10) rest := by
  apply Fresh_suffix bol (b == 10) [b] rest h
  intro hb
  have : b = 10 := by simpa using hb
  exact Or.inr (by simp [this])

/-- Stripping is idempotent where no line starts with two timestamps in a row. -/
theorem removeAllAux_idem (n : Nat) : ∀ (l : Bytes) (bol : Bool), l.length ≤ n → Fresh bol l →
    removeAllAux matchTimestamp bol 0 (removeAllAux matchTimestamp bol 0 l) =
      removeAllAux matchTimestamp bol 0 l := by
  induction n with
  | zero =>
    intro l bol hl _
    have : l = [] := List.length_eq_zero.mp (Nat.le_zero.mp hl)
    subst this
    simp [removeAllAux]
  | succ n ih =>
    intro l bol hl hfresh
    cases l with
    | nil => simp [removeAllAux]
    | cons b rest =>
      simp only [List.length_cons] at hl
      have hrest : rest.length ≤ n := by omega
      -- the byte at the head is copied
      have copied : ∀ bol1 : Bool, (bol1 = true → matchTimestamp (b :: rest) = none) →
          Fresh bol1 (b :: rest) →
          removeAllAux matchTimestamp bol1 0
              (b :: removeAllAux matchTimestamp (b == 10) 0 rest) =
            b :: removeAllAux matchTimestamp (b == 10) 0 rest := by
        intro bol1 hnone hfr
        have step := ih rest (b == 10) hrest (Fresh_tail bol1 b rest hfr)
        cases bol1 with
        | false => simp only [removeAllAux, step]
        | true =>
          have hm : matchTimestamp (b :: removeAllAux matchTimestamp (b == 10) 0 rest)
              = none := by
            rw [← matchTimestamp_firstLine, firstLine_cons_removeAllAux,
              matchTimestamp_firstLine]
            exact hnone rfl
          rw [removeAllAux_no_match _ _ _ hm, step]
      cases bol with
      | false =>
        have e : removeAllAux matchTimestamp false 0 (b :: rest) =
            b :: removeAllAux matchTimestamp (b == 10) 0 rest := by simp [removeAllAux]
        rw [e]
        exact copied false (fun h => absurd h (by simp)) hfresh
      | true =>
        cases hm : matchTimestamp (b :: rest) with
        | none =>
          rw [removeAllAux_no_match _ _ _ hm]
          exact copied true (fun _ => hm) hfresh
        | some len =>
          obtain ⟨hpos, hlen⟩ := matchTimestamp_bounds _ _ hm
          simp only [List.length_cons] at hlen
          have e : removeAllAux matchTimestamp true 0 (b :: rest) =
              removeAllAux matchTimestamp (b == 10) (len - 1) rest := by
            simp [removeAllAux, hm]
          obtain ⟨bol1, hskip⟩ := removeAllAux_skip matchTimestamp rest (len - 1) (b == 10)
            (by omega)
          have hdrop : rest.drop (len - 1) = (b :: rest).drop len := by
            cases len with
            | zero => omega
            | succ k => simp
          rw [e, hskip, hdrop]
          have hnone : matchTimestamp ((b :: rest).drop len) = none :=
            hfresh [] (b :: rest) rfl (Or.inl ⟨rfl, rfl⟩) len hm
          have hsplit : (b :: rest) = (b :: rest).take len ++ (b :: rest).drop len :=
            (List.take_append_drop len (b :: rest)).symm
          generalize hq : (b :: rest).drop len = q at hnone hsplit
          generalize hp : (b :: rest).take len = p at hsplit
          have hplen : p.length = len := by
            rw [← hp, List.length_take]
            simp only [List.length_cons]
            omega
          cases q with
          | nil => cases bol1 <;> simp [removeAllAux]
          | cons c q1 =>
            rw [removeAllAux_no_match _ _ _ hnone]
            have hq1 : q1.length ≤ n := by
              have := congrArg List.length hsplit
              simp only [List.length_cons, List.length_append] at this
              omega
            have hfr1 : Fresh (c == 10) q1 := by
              have h1 : Fresh true ((p ++ [c]) ++ q1) := by
                rw [List.append_assoc, List.singleton_append, ← hsplit]
                exact hfresh
              apply Fresh_suffix true (c == 10) (p ++ [c]) q1 h1
              intro hc
              have : c = 10 := by simpa using hc
              exact Or.inr (by simp [this])
            have step := ih q1 (c == 10) hq1 hfr1
            have hm1 : matchTimestamp (c :: removeAllAux matchTimestamp (c == 10) 0 q1)
                = none := by
              rw [← matchTimestamp_firstLine, firstLine_cons_removeAllAux,
                matchTimestamp_firstLine]
              exact hnone
            rw [removeAllAux_no_match _ _ _ hm1, step]

theorem Fresh_of_no_doubleStamp (b : Bytes)
    (h : ∀ i, i < b.length → doubleStampAt b i = false) : Fresh true b := by
  intro pre post hb hpre len hm
  obtain ⟨hpos, hlen⟩ := matchTimestamp_bounds _ _ hm
  have hi : pre.length < b.length := by
    rw [hb, List.length_append]
    omega
  have hd := h pre.length hi
  have hdrop : b.drop pre.length = post := by rw [hb]; simp
  have hdrop2 : b.drop (pre.length + len) = post.drop len := by
    rw [hb, ← List.drop_drop]; simp
  have hstart : (pre.length == 0 || b.get? (pre.length - 1) == some 10) = true := by
    rcases hpre with ⟨hnil, _⟩ | hlast
    · simp [hnil]
    · have hne : pre ≠ [] := by
        intro e; rw [e] at hlast; simp at hlast
      have hlt : pre.length - 1 < pre.length :=
        Nat.sub_lt (List.length_pos.mpr hne) (by omega)
      have hget : b.get? (pre.length - 1) = pre.getLast? := by
        rw [hb, List.getLast?_eq_getElem?, List.get?_eq_getElem?,
          List.getElem?_append_left hlt]
      rw [hget, hlast]
      simp
  simp only [doubleStampAt, hstart, hdrop, hm, hdrop2, Bool.true_and] at hd
  cases hx : matchTimestamp (post.drop len) with
  | none => rfl
  | some v => rw [hx] at hd; simp at hd

set_option maxRecDepth 100000 in
/-- C4 (as the claim states it, refuted): on a line that starts with two timestamps
the first pass removes the first one only, as the second does not start a line;
the second pass removes the second one. -/
theorem stripTimestamps_not_idempotent :
    stripTimestamps doubleStampLog = ascii "2020-04-15T12:19:01Z ok\n" ∧
    stripTimestamps (stripTimestamps doubleStampLog) = ascii "ok\n" ∧
    stripTimestamps (stripTimestamps doubleStampLog) ≠ stripTimestamps doubleStampLog := by
  refine ⟨by decide, by decide, by decide⟩

/-- C4 (amended): timestamp stripping is idempotent on every buffer in which no line
starts with two timestamps in a row: for such a buffer, removing all matches of
the line-leading timestamp pattern from the stripped buffer yields the stripped
buffer again. -/
theorem stripTimestamps_idempotent_single (b : Bytes)
    (h : ∀ i, i < b.length → doubleStampAt b i = false) :
    stripTimestamps (stripTimestamps b) = stripTimestamps b := by
  unfold stripTimestamps
  exact removeAllAux_idem b.length b true (Nat.le_refl _) (Fresh_of_no_doubleStamp b h)

set_option maxRecDepth 100000 in
/-- Witness of C4 (amended): two lines with one timestamp each. -/
theorem stripTimestamps_idempotent_single_witness :
    (∀ i, i < singleStampLog.length → doubleStampAt singleStampLog i = false) ∧
    stripTimestamps singleStampLog = ascii "ok\nFAIL\n" ∧
    stripTimestamps (stripTimestamps singleStampLog) = stripTimestamps singleStampLog :=
  ⟨by decide, by decide, stripTimestamps_idempotent_single singleStampLog (by decide)⟩

/-! ## Claims about `parseZip` -/

theorem parseZipLoop_skip (outputDir zipFile : Bytes) (g : ZipMember) (fs : List ZipMember)
    (h : g.name.contains SLASH = false) :
    parseZipLoop outputDir zipFile (g :: fs) = parseZipLoop outputDir zipFile fs := by
  simp only [parseZipLoop, h, Bool.not_false, if_true]

theorem parseZipLoop_bytes (outputDir zipFile name buf : Bytes) (fs : List ZipMember)
    (h : name.contains SLASH = true) :
    parseZipLoop outputDir zipFile (⟨name, .bytes buf⟩ :: fs) =
      (parseZipLoop outputDir zipFile fs).map fun r =>
        ⟨(name, buf) :: r.parsed,
          ((parseFile outputDir zipFile name buf).map (·.saved)).getD [] ++ r.saved, r.err⟩ := by
  simp only [parseZipLoop, h, Bool.not_true, Bool.false_eq_true, if_false, parseFile_eq]
  cases parseZipLoop outputDir zipFile fs with
  | none => rfl
  | some r => rfl

/-- The members of a readable stretch of an archive are passed to `parseFile` in
order, and the loop goes on with what follows. -/
theorem parseZipLoop_append (outputDir zipFile : Bytes) (pre : List ZipMember)
    (hpre : ∀ g ∈ pre, g.name.contains SLASH = true → g.readable = true) :
    ∃ savedPre, ∀ rest,
      parseZipLoop outputDir zipFile (pre ++ rest) =
        (parseZipLoop outputDir zipFile rest).map fun r =>
          ⟨membersInSubdirectories pre ++ r.parsed, savedPre ++ r.saved, r.err⟩ := by
  induction pre with
  | nil =>
    refine ⟨[], fun rest => ?_⟩
    simp only [List.nil_append]
    cases parseZipLoop outputDir zipFile rest with
    | none => rfl
    | some r => rfl
  | cons g pre ih =>
    obtain ⟨savedPre, hrec⟩ := ih (fun x hx => hpre x (List.mem_cons_of_mem _ hx))
    by_cases hs : g.name.contains SLASH = true
    · have hread := hpre g (List.mem_cons_self _ _) hs
      obtain ⟨gname, gdata⟩ := g
      cases gdata with
      | openFails => simp [ZipMember.readable] at hread
      | readFails => simp [ZipMember.readable] at hread
      | bytes buf =>
        simp only at hs
        have hmem : membersInSubdirectories (⟨gname, .bytes buf⟩ :: pre) =
            (gname, buf) :: membersInSubdirectories pre := by
          simp only [membersInSubdirectories, List.filter_cons, hs, if_true, List.map_cons,
            ZipMember.content]
        refine ⟨((parseFile outputDir zipFile gname buf).map (·.saved)).getD [] ++ savedPre,
          fun rest => ?_⟩
        show parseZipLoop outputDir zipFile (⟨gname, .bytes buf⟩ :: (pre ++ rest)) = _
        rw [hmem, parseZipLoop_bytes _ _ _ _ _ hs, hrec rest]
        cases parseZipLoop outputDir zipFile rest with
        | none => rfl
        | some r => simp
    · refine ⟨savedPre, fun rest => ?_⟩
      have hs1 : g.name.contains SLASH = false := by simpa using hs
      have hmem : membersInSubdirectories (g :: pre) = membersInSubdirectories pre := by
        simp only [membersInSubdirectories, List.filter_cons, hs1, Bool.false_eq_true,
          if_false]
      show parseZipLoop outputDir zipFile (g :: (pre ++ rest)) = _
      rw [hmem, parseZipLoop_skip _ _ _ _ hs1, hrec rest]

set_option maxRecDepth 100000 in
/-- C11 (as the claim states it, refuted): in an archive whose first member in a
subdirectory cannot be opened, or cannot be read, `parseZip` returns the error at
that member and does not parse the later member `job2/log.txt`, which is in a
subdirectory and readable. -/
theorem parseZip_stops_at_unreadable_member :
    parseZip (ascii "output") (ascii "logs.zip") (some archiveOpenFails)
      = some ⟨[], [], some .openMember⟩ ∧
    parseZip (ascii "output") (ascii "logs.zip") (some archiveReadFails)
      = some ⟨[], [], some .readMember⟩ ∧
    (∀ f ∈ archiveOpenFails.drop 1, f.name.contains SLASH = true ∧ f.readable = true) ∧
    (∀ f ∈ archiveReadFails.drop 1, f.name.contains SLASH = true ∧ f.readable = true) := by
  refine ⟨by decide, by decide, by decide, by decide⟩

/-- C11 (amended): a member in a subdirectory that cannot be opened or read ends the
parsing of its archive: when the members before it can be opened and read,
`parseZip` returns the error of that member, having passed to `parseFile` exactly
the earlier members whose name contains `/`, and it parses no later member. -/
theorem parseZip_unreadable_member_ends_archive (outputDir zipFile : Bytes)
    (pre : List ZipMember) (f : ZipMember) (post : List ZipMember)
    (hpre : ∀ g ∈ pre, g.name.contains SLASH = true → g.readable = true)
    (hname : f.name.contains SLASH = true) (hbad : f.readable = false) :
    ∃ saved,
      parseZip outputDir zipFile (some (pre ++ f :: post)) =
        some ⟨membersInSubdirectories pre, saved,
          some (if f.data = .openFails then .openMember else .readMember)⟩ := by
  obtain ⟨savedPre, hrec⟩ := parseZipLoop_append outputDir zipFile pre hpre
  refine ⟨savedPre, ?_⟩
  simp only [parseZip, hrec (f :: post)]
  obtain ⟨fname, fdata⟩ := f
  simp only at hname
  cases fdata with
  | bytes buf => simp [ZipMember.readable] at hbad
  | openFails =>
    have hname1 : SLASH ∈ fname := by simpa using hname
    simp [parseZipLoop, hname1]
  | readFails =>
    have hname1 : SLASH ∈ fname := by simpa using hname
    simp [parseZipLoop, hname1]

set_option maxRecDepth 100000 in
/-- Witness of C11 (amended): a readable member, then one that cannot be read, then
a readable one. -/
theorem parseZip_unreadable_member_ends_archive_witness :
    ∃ saved,
      parseZip (ascii "output") (ascii "logs.zip")
          (some ([⟨ascii "job0/log.txt", .bytes noTestFilesLog⟩] ++
            ⟨ascii "job1/log.txt", .readFails⟩ ::
            [⟨ascii "job2/log.txt", .bytes twoLeavesLog⟩])) =
        some ⟨membersInSubdirectories [⟨ascii "job0/log.txt", .bytes noTestFilesLog⟩], saved,
          some (if (ZipMember.mk (ascii "job1/log.txt") .readFails).data = .openFails
            then .openMember else .readMember)⟩ :=
  parseZip_unreadable_member_ends_archive (ascii "output") (ascii "logs.zip")
    [⟨ascii "job0/log.txt", .bytes noTestFilesLog⟩] ⟨ascii "job1/log.txt", .readFails⟩
    [⟨ascii "job2/log.txt", .bytes twoLeavesLog⟩] (by decide) (by decide) (by decide)

/-- C12: for every archive all of whose members can be opened and read, `parseZip`
returns no error and passes to `parseFile` exactly the members whose name contains
`/`, each once and in archive order, with their content; a member without `/` in
its name is not passed. -/
theorem parseZip_parses_members_in_subdirectories (outputDir zipFile : Bytes)
    (files : List ZipMember) (hread : ∀ f ∈ files, f.readable = true) :
    ∃ saved,
      parseZip outputDir zipFile (some files) =
        some ⟨(files.filter fun f => f.name.contains SLASH).map fun f => (f.name, f.content),
          saved, none⟩ := by
  obtain ⟨savedPre, hrec⟩ :=
    parseZipLoop_append outputDir zipFile files (fun g hg _ => hread g hg)
  refine ⟨savedPre, ?_⟩
  have := hrec []
  simp only [List.append_nil, parseZipLoop, Option.map_some'] at this
  simp only [parseZip, this, membersInSubdirectories]

set_option maxRecDepth 100000 in
/-- Witness of C12: a top-level member and two members in subdirectories. -/
theorem parseZip_parses_members_in_subdirectories_witness :
    (∀ f ∈ archiveReadable, f.readable = true) ∧
    ∃ saved,
      parseZip (ascii "output") (ascii "logs.zip") (some archiveReadable) =
        some ⟨(archiveReadable.filter fun f => f.name.contains SLASH).map
          fun f => (f.name, f.content), saved, none⟩ :=
  ⟨by decide,
    parseZip_parses_members_in_subdirectories (ascii "output") (ascii "logs.zip")
      archiveReadable (by decide)⟩

/-! ## The loop of `parseFile` on a file system that may refuse -/

theorem saveFailureOn_eq (fs : FileSystem)
    (outputDir zipFile name module failedTest buf : Bytes) :
    saveFailureOn fs outputDir zipFile name module failedTest buf =
      some ([(⟨[outputDir, toFileName module, toFileName failedTest],
        toFileName (name ++ ascii "-" ++ archiveBaseNameWithoutExt zipFile) ++ ascii ".txt",
        buf⟩ : SavedFile)].filter fs.accepts) := by
  have hext : (Ext (Base zipFile)).length ≤ (Base zipFile).length := Ext_length_le _
  have htxt : toFileName (ascii ".txt") = ascii ".txt" := by decide
  have hfile : toFileName (name ++ ascii "-" ++
      List.take ((Base zipFile).length - (Ext (Base zipFile)).length) (Base zipFile) ++
        ascii ".txt") =
      toFileName (name ++ ascii "-" ++ archiveBaseNameWithoutExt zipFile) ++ ascii ".txt" := by
    rw [toFileName_append _ (ascii ".txt"), htxt]
    rfl
  unfold saveFailureOn
  simp only [hext, if_true]
  rw [slice_eq _ _ _ (Nat.zero_le _) (Nat.sub_le _ _)]
  simp only [List.drop_zero, Nat.sub_zero, hfile]
  generalize toFileName (name ++ ascii "-" ++ archiveBaseNameWithoutExt zipFile) ++ ascii ".txt"
    = file
  generalize [outputDir, toFileName module, toFileName failedTest] = dir
  simp only [List.filter_cons, List.filter_nil, FileSystem.accepts]
  cases hm : fs.mkdirAllFails dir <;> cases hw : fs.writeFileFails dir file buf <;> simp

theorem parsePartOn_eq (fs : FileSystem) (outputDir zipFile name b : Bytes) (prev : Nat)
    (part : SplitMatch)
    (h1 : prev ≤ part.stop) (h2 : part.g1s ≤ part.g1e) (h3 : part.g1e ≤ b.length)
    (h4 : part.g2s ≤ part.g2e) (h5 : part.g2e ≤ b.length) (h6 : part.stop ≤ b.length) :
    parsePartOn fs outputDir zipFile name b prev part =
      some (((requestOf outputDir zipFile name b part (windowSlice b (prev, part.stop))).toList).filter
        fs.accepts) := by
  unfold parsePartOn requestOf
  rw [slice_eq b _ _ h2 h3, slice_eq b _ _ h4 h5]
  simp only [statusOf, moduleOf, windowSlice]
  by_cases hst : TrimSpace (List.take (part.g1e - part.g1s) (List.drop part.g1s b)) = ascii "FAIL"
  · simp only [hst, if_true]
    rw [slice_eq b _ _ h1 h6]
    simp only
    cases hf : findFailures (List.take (part.stop - prev) (List.drop prev b)) with
    | nil => simp
    | cons t ts => simp only [saveFailureOn_eq, Option.toList]
  · simp [hst]

theorem parsePart_eq_requestOf (outputDir zipFile name b : Bytes) (prev : Nat)
    (part : SplitMatch)
    (h1 : prev ≤ part.stop) (h2 : part.g1s ≤ part.g1e) (h3 : part.g1e ≤ b.length)
    (h4 : part.g2s ≤ part.g2e) (h5 : part.g2e ≤ b.length) (h6 : part.stop ≤ b.length) :
    parsePart outputDir zipFile name b prev part =
      some ((requestOf outputDir zipFile name b part (windowSlice b (prev, part.stop))).toList) := by
  unfold parsePart requestOf
  rw [slice_eq b _ _ h2 h3, slice_eq b _ _ h4 h5]
  simp only [statusOf, moduleOf, windowSlice]
  by_cases hst : TrimSpace (List.take (part.g1e - part.g1s) (List.drop part.g1s b)) = ascii "FAIL"
  · simp only [hst, if_true]
    rw [slice_eq b _ _ h1 h6]
    simp only
    cases hf : findFailures (List.take (part.stop - prev) (List.drop prev b)) with
    | nil => simp
    | cons t ts => simp only [saveFailure_eq, Option.toList]
  · simp [hst]

theorem parseLoopOn_eq (fs : FileSystem) (outputDir zipFile name b : Bytes)
    (parts : List SplitMatch) (prev : Nat) (h : WellPlaced b.length prev parts) :
    parseLoopOn fs outputDir zipFile name b prev parts =
      some (((parts.zip (loopWindows prev parts)).filterMap fun pw =>
        requestOf outputDir zipFile name b pw.1 (windowSlice b pw.2)).filter fs.accepts) := by
  induction parts generalizing prev with
  | nil => simp [parseLoopOn, loopWindows]
  | cons p ps ih =>
    obtain ⟨w1, w2, w3, w4, w5, w6, w7, w8⟩ := h
    have hp := parsePartOn_eq fs outputDir zipFile name b prev p (by omega) w3 (by omega) w5
      (by omega) w7
    have hrest := ih p.stop w8
    simp only [parseLoopOn, hp, hrest]
    simp only [loopWindows, List.zip_cons_cons, List.filterMap_cons]
    cases requestOf outputDir zipFile name b p (windowSlice b (prev, p.stop)) with
    | none => simp
    | some q =>
      simp only [Option.toList, List.filter_cons, List.filter_nil]
      cases fs.accepts q <;> simp

theorem parseLoop_eq_requestOf (outputDir zipFile name b : Bytes)
    (parts : List SplitMatch) (prev : Nat) (h : WellPlaced b.length prev parts) :
    parseLoop outputDir zipFile name b prev parts =
      some ((parts.zip (loopWindows prev parts)).filterMap fun pw =>
        requestOf outputDir zipFile name b pw.1 (windowSlice b pw.2)) := by
  induction parts generalizing prev with
  | nil => simp [parseLoop, loopWindows]
  | cons p ps ih =>
    obtain ⟨w1, w2, w3, w4, w5, w6, w7, w8⟩ := h
    have hp := parsePart_eq_requestOf outputDir zipFile name b prev p (by omega) w3 (by omega)
      w5 (by omega) w7
    have hrest := ih p.stop w8
    simp only [parseLoop, hp, hrest]
    simp only [loopWindows, List.zip_cons_cons, List.filterMap_cons]
    cases requestOf outputDir zipFile name b p (windowSlice b (prev, p.stop)) with
    | none => simp
    | some q => simp

theorem parseFileOn_eq (fs : FileSystem) (outputDir zipFile name buf : Bytes) :
    parseFileOn fs outputDir zipFile name buf =
      some ⟨(((splitReFindAll (cleanBuffer buf)).zip
          (loopWindows 0 (splitReFindAll (cleanBuffer buf)))).filterMap fun pw =>
        requestOf outputDir zipFile name (cleanBuffer buf) pw.1
          (windowSlice (cleanBuffer buf) pw.2)).filter fs.accepts, none⟩ := by
  unfold parseFileOn
  simp only
  rw [parseLoopOn_eq _ _ _ _ _ _ _ (splitReFindAll_wellPlaced (cleanBuffer buf))]
  by_cases h0 : (splitReFindAll (cleanBuffer buf)).length = 0
  · have : splitReFindAll (cleanBuffer buf) = [] := List.length_eq_zero.mp h0
    simp [this, loopWindows]
  · simp [h0]

theorem parseFile_eq_requestOf (outputDir zipFile name buf : Bytes) :
    parseFile outputDir zipFile name buf =
      some ⟨((splitReFindAll (cleanBuffer buf)).zip
          (loopWindows 0 (splitReFindAll (cleanBuffer buf)))).filterMap fun pw =>
        requestOf outputDir zipFile name (cleanBuffer buf) pw.1
          (windowSlice (cleanBuffer buf) pw.2), none⟩ := by
  unfold parseFile
  simp only
  rw [parseLoop_eq_requestOf _ _ _ _ _ _ (splitReFindAll_wellPlaced (cleanBuffer buf))]
  by_cases h0 : (splitReFindAll (cleanBuffer buf)).length = 0
  · have : splitReFindAll (cleanBuffer buf) = [] := List.length_eq_zero.mp h0
    simp [this, loopWindows]
  · simp [h0]

/-! ## The search windows of `parseFile` -/

theorem loopWindows_eq_zip (prev : Nat) (parts : List SplitMatch) :
    loopWindows prev parts = List.zip (prev :: parts.map (·.stop)) (parts.map (·.stop)) := by
  induction parts generalizing prev with
  | nil => rfl
  | cons p ps ih => simp only [loopWindows, List.map_cons, List.zip_cons_cons, ih]

theorem mem_loopWindows_of_markerWindows (prev : Nat) (parts : List SplitMatch)
    (mw : SplitMatch × Nat) (h : mw ∈ markerWindows prev parts) :
    (mw.2, mw.1.stop) ∈ loopWindows prev parts := by
  induction parts generalizing prev with
  | nil => simp [markerWindows] at h
  | cons p ps ih =>
    simp only [markerWindows, List.map_cons, List.zip_cons_cons, List.mem_cons] at h
    rcases h with rfl | h
    · simp [loopWindows]
    · exact List.mem_cons_of_mem _ (ih p.stop h)

theorem loopWindows_bounds (hi prev : Nat) (parts : List SplitMatch)
    (h : WellPlaced hi prev parts) :
    ∀ w ∈ loopWindows prev parts, prev ≤ w.1 ∧ w.1 ≤ w.2 ∧ w.2 ≤ hi := by
  induction parts generalizing prev with
  | nil => simp [loopWindows]
  | cons p ps ih =>
    obtain ⟨w1, w2, w3, w4, w5, w6, w7, w8⟩ := h
    intro w hw
    simp only [loopWindows, List.mem_cons] at hw
    rcases hw with rfl | hw
    · exact ⟨Nat.le_refl _, by simp only; omega, w7⟩
    · obtain ⟨a, b, c⟩ := ih p.stop w8 w hw
      exact ⟨by omega, b, c⟩

theorem loopWindows_pairwise (hi prev : Nat) (parts : List SplitMatch)
    (h : WellPlaced hi prev parts) :
    (loopWindows prev parts).Pairwise fun w v => w.2 ≤ v.1 := by
  induction parts generalizing prev with
  | nil => simp [loopWindows]
  | cons p ps ih =>
    obtain ⟨_, _, _, _, _, _, _, w8⟩ := h
    simp only [loopWindows, List.pairwise_cons]
    exact ⟨fun v hv => (loopWindows_bounds hi p.stop ps w8 v hv).1, ih p.stop w8⟩

theorem loopWindows_adjacent (prev : Nat) (parts : List SplitMatch) :
    (loopWindows prev parts).Chain' fun w v => w.2 = v.1 := by
  induction parts generalizing prev with
  | nil => simp [loopWindows]
  | cons p ps ih =>
    simp only [loopWindows]
    rw [List.chain'_cons']
    refine ⟨?_, ih p.stop⟩
    intro v hv
    cases ps with
    | nil => simp [loopWindows] at hv
    | cons q qs =>
      simp only [loopWindows, List.head?_cons, Option.mem_def, Option.some.injEq] at hv
      rw [← hv]

theorem lastEndFrom_ge (hi prev : Nat) (parts : List SplitMatch)
    (h : WellPlaced hi prev parts) : prev ≤ lastEndFrom prev parts := by
  induction parts generalizing prev with
  | nil => exact Nat.le_refl _
  | cons p ps ih =>
    obtain ⟨w1, w2, w3, w4, w5, w6, w7, w8⟩ := h
    have := ih p.stop w8
    simp only [lastEndFrom]
    omega

theorem lastEndFrom_zero (parts : List SplitMatch) :
    lastEndFrom 0 parts = lastMarkerEnd parts := by
  have key : ∀ (ps : List SplitMatch) (prev : Nat),
      lastEndFrom prev ps = (match ps.getLast? with | some q => q.stop | none => prev) := by
    intro ps
    induction ps with
    | nil => intro prev; rfl
    | cons p ps ih =>
      intro prev
      simp only [lastEndFrom, ih p.stop]
      cases ps with
      | nil => rfl
      | cons q qs =>
        simp only [List.getLast?_cons_cons]
        have hne : (q :: qs).getLast? ≠ none := by simp
        cases hg : (q :: qs).getLast? with
        | none => exact absurd hg hne
        | some r => rfl
  rw [key parts 0]
  rfl

theorem lastEndFrom_le (hi prev : Nat) (parts : List SplitMatch)
    (h : WellPlaced hi prev parts) (hprev : prev ≤ hi) : lastEndFrom prev parts ≤ hi := by
  induction parts generalizing prev with
  | nil => exact hprev
  | cons p ps ih =>
    obtain ⟨w1, w2, w3, w4, w5, w6, w7, w8⟩ := h
    exact ih p.stop w8 w7

theorem loopWindows_le_last (hi prev : Nat) (parts : List SplitMatch)
    (h : WellPlaced hi prev parts) :
    ∀ w ∈ loopWindows prev parts, w.2 ≤ lastEndFrom prev parts := by
  induction parts generalizing prev with
  | nil => simp [loopWindows]
  | cons p ps ih =>
    obtain ⟨w1, w2, w3, w4, w5, w6, w7, w8⟩ := h
    intro w hw
    simp only [loopWindows, List.mem_cons] at hw
    simp only [lastEndFrom]
    rcases hw with rfl | hw
    · exact lastEndFrom_ge hi p.stop ps w8
    · exact ih p.stop w8 w hw

theorem take_drop_glue (b : Bytes) (lo mid hi : Nat) (h1 : lo ≤ mid) (h2 : mid ≤ hi) :
    (b.drop lo).take (mid - lo) ++ (b.drop mid).take (hi - mid) = (b.drop lo).take (hi - lo) := by
  have e1 : hi - lo = (mid - lo) + (hi - mid) := by omega
  have e2 : b.drop mid = (b.drop lo).drop (mid - lo) := by
    rw [List.drop_drop]
    congr 1
    omega
  rw [e1, List.take_add, e2]

theorem windowBytes_loopWindows (b : Bytes) (prev : Nat) (parts : List SplitMatch)
    (h : WellPlaced b.length prev parts) :
    windowBytes b (loopWindows prev parts) =
      (b.drop prev).take (lastEndFrom prev parts - prev) := by
  induction parts generalizing prev with
  | nil => simp [loopWindows, windowBytes, lastEndFrom]
  | cons p ps ih =>
    obtain ⟨w1, w2, w3, w4, w5, w6, w7, w8⟩ := h
    have hge := lastEndFrom_ge b.length p.stop ps w8
    simp only [loopWindows, windowBytes, lastEndFrom, ih p.stop w8]
    exact take_drop_glue b prev p.stop _ (by omega) hge

theorem slice_of_take (b : Bytes) (lo hi e : Nat) (h : hi ≤ e) :
    (b.drop lo).take (hi - lo) = ((b.take e).drop lo).take (hi - lo) := by
  rw [List.drop_take, List.take_take]
  congr 1
  omega

theorem slice_congr (b c : Bytes) (lo hi e : Nat) (h : hi ≤ e) (hbc : b.take e = c.take e) :
    (b.drop lo).take (hi - lo) = (c.drop lo).take (hi - lo) := by
  rw [slice_of_take b lo hi e h, slice_of_take c lo hi e h, hbc]

theorem WellPlaced_stop_le (hi prev : Nat) (parts : List SplitMatch)
    (h : WellPlaced hi prev parts) :
    ∀ part ∈ parts, part.g1e ≤ lastEndFrom prev parts ∧ part.g2e ≤ lastEndFrom prev parts := by
  induction parts generalizing prev with
  | nil => simp
  | cons p ps ih =>
    obtain ⟨w1, w2, w3, w4, w5, w6, w7, w8⟩ := h
    have hge := lastEndFrom_ge hi p.stop ps w8
    intro part hpart
    simp only [lastEndFrom]
    rcases List.mem_cons.mp hpart with rfl | hpart
    · exact ⟨by omega, by omega⟩
    · exact ih p.stop w8 part hpart

/-- What the loop asks to be written for a marker is the same in two buffers that
agree up to the end of the last marker. -/
theorem requestOf_congr (outputDir zipFile name b c : Bytes) (parts : List SplitMatch)
    (hwp : WellPlaced b.length 0 parts)
    (hbc : b.take (lastMarkerEnd parts) = c.take (lastMarkerEnd parts))
    (pw : SplitMatch × (Nat × Nat)) (hpw : pw ∈ parts.zip (loopWindows 0 parts)) :
    requestOf outputDir zipFile name b pw.1 (windowSlice b pw.2) =
      requestOf outputDir zipFile name c pw.1 (windowSlice c pw.2) := by
  obtain ⟨hp, hw⟩ := List.of_mem_zip hpw
  have hg := WellPlaced_stop_le _ 0 _ hwp pw.1 hp
  have hwin := loopWindows_le_last _ 0 _ hwp pw.2 hw
  rw [lastEndFrom_zero] at hg hwin
  have e1 : statusOf b pw.1 = statusOf c pw.1 := by
    unfold statusOf
    rw [slice_congr b c _ _ _ hg.1 hbc]
  have e2 : moduleOf b pw.1 = moduleOf c pw.1 := by
    unfold moduleOf
    rw [slice_congr b c _ _ _ hg.2 hbc]
  have e3 : windowSlice b pw.2 = windowSlice c pw.2 := by
    unfold windowSlice
    rw [slice_congr b c _ _ _ hwin hbc]
  unfold requestOf
  rw [e1, e2, e3]

/-- C13: for every member content, with the markers of the cleaned buffer in order of
appearance, the search window of the first marker is `[0, end of it)` and the
search window of every other marker is `[end of the marker before it, end of it)`.
The windows lie inside the buffer, are pairwise disjoint and adjacent, and their
bytes, one after the other, are exactly the cleaned buffer up to the end of the
last marker line.  These windows are what `parseFile` searches and saves: its
result, with and without the errors of the file system, is computed from the
markers and from `findFailures` applied to the bytes of each window, and every
file saved holds the bytes of one window.  So no byte after the last marker line
is searched or saved: two member contents with the same markers that agree up to
the end of the last marker line give the same result. -/
theorem parseFile_windows_partition (buf : Bytes) :
    loopWindows 0 (splitReFindAll (cleanBuffer buf)) =
      List.zip (0 :: (splitReFindAll (cleanBuffer buf)).map (·.stop))
        ((splitReFindAll (cleanBuffer buf)).map (·.stop)) ∧
    (∀ w ∈ loopWindows 0 (splitReFindAll (cleanBuffer buf)),
      w.1 ≤ w.2 ∧ w.2 ≤ lastMarkerEnd (splitReFindAll (cleanBuffer buf)) ∧
        lastMarkerEnd (splitReFindAll (cleanBuffer buf)) ≤ (cleanBuffer buf).length) ∧
    ((loopWindows 0 (splitReFindAll (cleanBuffer buf))).Pairwise fun w v => w.2 ≤ v.1) ∧
    ((loopWindows 0 (splitReFindAll (cleanBuffer buf))).Chain' fun w v => w.2 = v.1) ∧
    windowBytes (cleanBuffer buf) (loopWindows 0 (splitReFindAll (cleanBuffer buf))) =
      (cleanBuffer buf).take (lastMarkerEnd (splitReFindAll (cleanBuffer buf))) ∧
    (∀ outputDir zipFile name : Bytes,
      ∃ o, parseFile outputDir zipFile name buf = some o ∧
        ∀ f ∈ o.saved, ∃ w ∈ loopWindows 0 (splitReFindAll (cleanBuffer buf)),
          f.content = ((cleanBuffer buf).drop w.1).take (w.2 - w.1)) ∧
    (∀ outputDir zipFile name : Bytes,
      parseFile outputDir zipFile name buf =
        some ⟨((splitReFindAll (cleanBuffer buf)).zip
            (loopWindows 0 (splitReFindAll (cleanBuffer buf)))).filterMap fun pw =>
          requestOf outputDir zipFile name (cleanBuffer buf) pw.1
            (((cleanBuffer buf).drop pw.2.1).take (pw.2.2 - pw.2.1)), none⟩) ∧
    (∀ (fs : FileSystem) (outputDir zipFile name : Bytes),
      parseFileOn fs outputDir zipFile name buf =
        some ⟨(((splitReFindAll (cleanBuffer buf)).zip
            (loopWindows 0 (splitReFindAll (cleanBuffer buf)))).filterMap fun pw =>
          requestOf outputDir zipFile name (cleanBuffer buf) pw.1
            (((cleanBuffer buf).drop pw.2.1).take (pw.2.2 - pw.2.1))).filter fs.accepts,
          none⟩) ∧
    (∀ (fs : FileSystem) (outputDir zipFile name other : Bytes),
      splitReFindAll (cleanBuffer other) = splitReFindAll (cleanBuffer buf) →
      (cleanBuffer other).take (lastMarkerEnd (splitReFindAll (cleanBuffer buf))) =
        (cleanBuffer buf).take (lastMarkerEnd (splitReFindAll (cleanBuffer buf))) →
      parseFile outputDir zipFile name other = parseFile outputDir zipFile name buf ∧
        parseFileOn fs outputDir zipFile name other =
          parseFileOn fs outputDir zipFile name buf) := by
  have hwp := splitReFindAll_wellPlaced (cleanBuffer buf)
  refine ⟨loopWindows_eq_zip 0 _, ?_, loopWindows_pairwise _ 0 _ hwp,
    loopWindows_adjacent 0 _, ?_, ?_, ?_, ?_, ?_⟩
  · intro w hw
    rw [← lastEndFrom_zero]
    exact ⟨(loopWindows_bounds _ 0 _ hwp w hw).2.1, loopWindows_le_last _ 0 _ hwp w hw,
      lastEndFrom_le _ 0 _ hwp (Nat.zero_le _)⟩
  · have := windowBytes_loopWindows (cleanBuffer buf) 0 _ hwp
    rw [this, lastEndFrom_zero]
    simp
  · intro outputDir zipFile name
    refine ⟨_, parseFile_eq outputDir zipFile name buf, ?_⟩
    intro f hf
    simp only [List.mem_map] at hf
    obtain ⟨c, hc, rfl⟩ := hf
    simp only [saveCalls, List.mem_filterMap] at hc
    obtain ⟨mw, hmw, hcall⟩ := hc
    refine ⟨(mw.2, mw.1.stop), mem_loopWindows_of_markerWindows 0 _ mw hmw, ?_⟩
    unfold saveCallOf at hcall
    split at hcall
    · split at hcall
      · exact absurd hcall (by simp)
      · simp only [Option.some.injEq] at hcall
        rw [← hcall]
        rfl
    · exact absurd hcall (by simp)
  · intro outputDir zipFile name
    exact parseFile_eq_requestOf outputDir zipFile name buf
  · intro fs outputDir zipFile name
    exact parseFileOn_eq fs outputDir zipFile name buf
  · intro fs outputDir zipFile name other hparts hpre
    have hcongr : ∀ pw ∈ (splitReFindAll (cleanBuffer buf)).zip
          (loopWindows 0 (splitReFindAll (cleanBuffer buf))),
        requestOf outputDir zipFile name (cleanBuffer other) pw.1
            (windowSlice (cleanBuffer other) pw.2) =
          requestOf outputDir zipFile name (cleanBuffer buf) pw.1
            (windowSlice (cleanBuffer buf) pw.2) := by
      intro pw hpw
      exact (requestOf_congr outputDir zipFile name (cleanBuffer buf) (cleanBuffer other) _ hwp
        hpre.symm pw hpw).symm
    have hlist := List.filterMap_congr hcongr
    rw [parseFile_eq_requestOf, parseFile_eq_requestOf, parseFileOn_eq, parseFileOn_eq, hparts,
      hlist]
    exact ⟨rfl, rfl⟩

set_option maxRecDepth 100000 in
/-- Witness of C13: the scenario of the specification and the same member without the
failure line that follows its last marker have the same markers and the same bytes
up to the end of the last marker line, and `parseFile` does the same on both. -/
theorem parseFile_windows_partition_witness :
    splitReFindAll (cleanBuffer scenarioLog) = splitReFindAll (cleanBuffer scenarioMarkersOnly) ∧
    (cleanBuffer scenarioLog).take (lastMarkerEnd (splitReFindAll (cleanBuffer scenarioMarkersOnly)))
      = (cleanBuffer scenarioMarkersOnly).take
          (lastMarkerEnd (splitReFindAll (cleanBuffer scenarioMarkersOnly))) ∧
    cleanBuffer scenarioLog ≠ cleanBuffer scenarioMarkersOnly ∧
    parseFile (ascii "output") (ascii "logs.zip") (ascii "job1/log.txt") scenarioLog =
      parseFile (ascii "output") (ascii "logs.zip") (ascii "job1/log.txt") scenarioMarkersOnly :=
  ⟨by decide, by decide, by decide,
    ((parseFile_windows_partition scenarioMarkersOnly).2.2.2.2.2.2.2.2 willingFileSystem
      (ascii "output") (ascii "logs.zip") (ascii "job1/log.txt") scenarioLog
      (by decide) (by decide)).1⟩

/-! ## A failure marker always leaves a name -/

theorem StrictAncestor_length (a b : Bytes) (h : StrictAncestor a b) :
    (Split SLASH a).length < (Split SLASH b).length := by
  obtain ⟨hp, hne⟩ := h
  rcases Nat.lt_or_ge (Split SLASH a).length (Split SLASH b).length with hlt | hge
  · exact hlt
  · exact absurd (hp.eq_of_length (Nat.le_antisymm hp.length_le hge)) hne

theorem exists_most_parts (names : List Bytes) (hne : names ≠ []) :
    ∃ n ∈ names, ∀ m ∈ names, (Split SLASH m).length ≤ (Split SLASH n).length := by
  induction names with
  | nil => exact absurd rfl hne
  | cons a rest ih =>
    cases rest with
    | nil =>
      refine ⟨a, List.mem_cons_self _ _, ?_⟩
      intro m hm
      simp only [List.mem_singleton] at hm
      rw [hm]
    | cons b rest1 =>
      obtain ⟨n, hn, hmax⟩ := ih (by simp)
      rcases Nat.lt_or_ge (Split SLASH n).length (Split SLASH a).length with hlt | hge
      · refine ⟨a, List.mem_cons_self _ _, ?_⟩
        intro m hm
        rcases List.mem_cons.mp hm with rfl | hm
        · exact Nat.le_refl _
        · exact Nat.le_trans (hmax m hm) (Nat.le_of_lt hlt)
      · refine ⟨n, List.mem_cons_of_mem _ hn, ?_⟩
        intro m hm
        rcases List.mem_cons.mp hm with rfl | hm
        · exact hge
        · exact hmax m hm

theorem leafNames_eq_nil_iff (names : List Bytes) : leafNames names = [] ↔ names = [] := by
  constructor
  · intro h
    by_contra hne
    obtain ⟨n, hn, hmax⟩ := exists_most_parts names hne
    have hmem : n ∈ leafNames names := by
      unfold leafNames
      rw [List.mem_filter]
      refine ⟨hn, ?_⟩
      simp only [decide_eq_true_eq, not_exists, not_and]
      intro m hm hanc
      have := StrictAncestor_length n m hanc
      have := hmax m hm
      omega
    rw [h] at hmem
    exact absurd hmem (List.not_mem_nil _)
  · intro h
    rw [h]
    rfl

theorem findFailures_eq_nil_iff (buf : Bytes) :
    findFailures buf = [] ↔ failReFindAll buf = [] := by
  rw [findFailures_eq_leafNames, leafNames_eq_nil_iff, capturedNames]
  exact List.map_eq_nil_iff

theorem mem_zip_loopWindows (prev : Nat) (parts : List SplitMatch) (mw : SplitMatch × Nat)
    (h : mw ∈ markerWindows prev parts) :
    (mw.1, (mw.2, mw.1.stop)) ∈ parts.zip (loopWindows prev parts) := by
  induction parts generalizing prev with
  | nil => simp [markerWindows] at h
  | cons p ps ih =>
    simp only [markerWindows, List.map_cons, List.zip_cons_cons, List.mem_cons] at h
    simp only [loopWindows, List.zip_cons_cons, List.mem_cons]
    rcases h with rfl | h
    · exact Or.inl rfl
    · exact Or.inr (ih p.stop h)

set_option maxRecDepth 100000 in
/-- C14 (as the claim states it, refuted): the member `longNameLog` has one marker, of
status `FAIL`, and its search window holds a failure marker, so `findFailures` of
the window is not empty; yet on a file system that refuses a path element of more
than 255 bytes `parseFile` saves nothing, as `os.MkdirAll` fails for the directory
named after the failure and `saveFailure` returns. -/
theorem parseFile_failure_marker_not_saved :
    (∃ mw ∈ markerWindows 0 (splitReFindAll (cleanBuffer longNameLog)),
      statusOf (cleanBuffer longNameLog) mw.1 = ascii "FAIL" ∧
      failReFindAll (windowOf (cleanBuffer longNameLog) mw.2 mw.1) ≠ [] ∧
      findFailures (windowOf (cleanBuffer longNameLog) mw.2 mw.1) ≠ []) ∧
    parseFileOn nameMaxFileSystem (ascii "output") (ascii "logs.zip") (ascii "job1/log.txt")
      longNameLog = some ⟨[], none⟩ := by
  refine ⟨by decide, by decide⟩

/-- C14 (amended): `findFailures` returns the empty list exactly when the
failure-marker pattern has no match in the buffer: once a marker is captured, a
name survives the removal of the ancestors.  So for every member content and each
`FAIL` marker whose search window holds a failure marker, `parseFile` calls
`saveFailure` with the first surviving name and the window; the file is saved
exactly when `os.MkdirAll` and `ioutil.WriteFile` succeed for it, and otherwise
`parseFile` still returns without error. -/
theorem findFailures_empty_iff_no_marker_save_attempted :
    (∀ buf : Bytes, findFailures buf = [] ↔ failReFindAll buf = []) ∧
    (∀ (fs : FileSystem) (outputDir zipFile name buf : Bytes),
      ∀ mw ∈ markerWindows 0 (splitReFindAll (cleanBuffer buf)),
        statusOf (cleanBuffer buf) mw.1 = ascii "FAIL" →
        failReFindAll (windowOf (cleanBuffer buf) mw.2 mw.1) ≠ [] →
        ∃ failedTest others,
          findFailures (windowOf (cleanBuffer buf) mw.2 mw.1) = failedTest :: others ∧
          ∃ saved, parseFileOn fs outputDir zipFile name buf = some ⟨saved, none⟩ ∧
            (({ dir := [outputDir, toFileName (moduleOf (cleanBuffer buf) mw.1),
                        toFileName failedTest]
                file := toFileName (name ++ ascii "-" ++ archiveBaseNameWithoutExt zipFile)
                          ++ ascii ".txt"
                content := windowOf (cleanBuffer buf) mw.2 mw.1 } : SavedFile) ∈ saved ↔
              fs.mkdirAllFails [outputDir, toFileName (moduleOf (cleanBuffer buf) mw.1),
                  toFileName failedTest] = false ∧
                fs.writeFileFails [outputDir, toFileName (moduleOf (cleanBuffer buf) mw.1),
                  toFileName failedTest]
                  (toFileName (name ++ ascii "-" ++ archiveBaseNameWithoutExt zipFile)
                    ++ ascii ".txt")
                  (windowOf (cleanBuffer buf) mw.2 mw.1) = false)) := by
  refine ⟨findFailures_eq_nil_iff, ?_⟩
  intro fs outputDir zipFile name buf mw hmw hfail hmark
  have hnames : findFailures (windowOf (cleanBuffer buf) mw.2 mw.1) ≠ [] :=
    fun h => hmark ((findFailures_eq_nil_iff _).mp h)
  cases hf : findFailures (windowOf (cleanBuffer buf) mw.2 mw.1) with
  | nil => exact absurd hf hnames
  | cons t ts =>
    refine ⟨t, ts, rfl, _, parseFileOn_eq fs outputDir zipFile name buf, ?_⟩
    have hreq : requestOf outputDir zipFile name (cleanBuffer buf) mw.1
        (windowSlice (cleanBuffer buf) (mw.2, mw.1.stop)) =
        some ⟨[outputDir, toFileName (moduleOf (cleanBuffer buf) mw.1), toFileName t],
          toFileName (name ++ ascii "-" ++ archiveBaseNameWithoutExt zipFile) ++ ascii ".txt",
          windowOf (cleanBuffer buf) mw.2 mw.1⟩ := by
      have hw : windowSlice (cleanBuffer buf) (mw.2, mw.1.stop) =
          windowOf (cleanBuffer buf) mw.2 mw.1 := rfl
      simp only [requestOf, hfail, if_true, hw, hf]
    rw [List.mem_filter]
    constructor
    · intro h
      have hacc := h.2
      simpa [FileSystem.accepts] using hacc
    · intro h
      refine ⟨?_, by simp only [FileSystem.accepts, h.1, h.2]; rfl⟩
      rw [List.mem_filterMap]
      exact ⟨(mw.1, (mw.2, mw.1.stop)), mem_zip_loopWindows 0 _ mw hmw, hreq⟩

set_option maxRecDepth 100000 in
/-- Witness of C14 (amended): the `FAIL` marker of the member with the failures `TestA`
and `TestB` in its window, on a file system on which every call succeeds. -/
theorem findFailures_empty_iff_no_marker_save_attempted_witness :
    ((⟨48, 72, 48, 52, 53, 67⟩, 0) : SplitMatch × Nat) ∈
      markerWindows 0 (splitReFindAll (cleanBuffer twoLeavesLog)) ∧
    statusOf (cleanBuffer twoLeavesLog) ⟨48, 72, 48, 52, 53, 67⟩ = ascii "FAIL" ∧
    failReFindAll (windowOf (cleanBuffer twoLeavesLog) 0 ⟨48, 72, 48, 52, 53, 67⟩) ≠ [] ∧
    ∃ failedTest others,
      findFailures (windowOf (cleanBuffer twoLeavesLog) 0 ⟨48, 72, 48, 52, 53, 67⟩)
        = failedTest :: others ∧
      ∃ saved, parseFileOn willingFileSystem (ascii "output") (ascii "logs.zip")
          (ascii "job1/log.txt") twoLeavesLog = some ⟨saved, none⟩ ∧
        (({ dir := [ascii "output",
                    toFileName (moduleOf (cleanBuffer twoLeavesLog) ⟨48, 72, 48, 52, 53, 67⟩),
                    toFileName failedTest]
            file := toFileName (ascii "job1/log.txt" ++ ascii "-" ++
                      archiveBaseNameWithoutExt (ascii "logs.zip")) ++ ascii ".txt"
            content := windowOf (cleanBuffer twoLeavesLog) 0 ⟨48, 72, 48, 52, 53, 67⟩ }
              : SavedFile) ∈ saved ↔
          willingFileSystem.mkdirAllFails [ascii "output",
              toFileName (moduleOf (cleanBuffer twoLeavesLog) ⟨48, 72, 48, 52, 53, 67⟩),
              toFileName failedTest] = false ∧
            willingFileSystem.writeFileFails [ascii "output",
              toFileName (moduleOf (cleanBuffer twoLeavesLog) ⟨48, 72, 48, 52, 53, 67⟩),
              toFileName failedTest]
              (toFileName (ascii "job1/log.txt" ++ ascii "-" ++
                archiveBaseNameWithoutExt (ascii "logs.zip")) ++ ascii ".txt")
              (windowOf (cleanBuffer twoLeavesLog) 0 ⟨48, 72, 48, 52, 53, 67⟩) = false) :=
  ⟨by decide, by decide, by decide,
    findFailures_empty_iff_no_marker_save_attempted.2 willingFileSystem (ascii "output")
      (ascii "logs.zip") (ascii "job1/log.txt") twoLeavesLog (⟨48, 72, 48, 52, 53, 67⟩, 0)
      (by decide) (by decide) (by decide)⟩

/-! ## No slice or index out of range -/

theorem allSome_map_some {α β : Type} (f : α → β) (l : List α) :
    allSome (l.map fun x => some (f x)) = some (l.map f) := by
  induction l with
  | nil => rfl
  | cons a l ih => simp only [List.map_cons, allSome, ih]

theorem parentPathsChecked_eq (failedTest : Bytes) :
    parentPathsChecked failedTest = some (parentPaths failedTest) := by
  unfold parentPathsChecked parentPaths
  simp only
  rw [← allSome_map_some]
  congr 1
  apply List.map_congr_left
  intro j hj
  have hlt : j < (Split SLASH failedTest).length - 1 := by
    simpa using hj
  have hle : j + 1 ≤ (Split SLASH failedTest).length := by omega
  simp only [sliceTo, hle, if_true, Option.map_some']

theorem collectFailuresChecked_eq (buf : Bytes) (fs : List (Found Bytes))
    (acc : List Bytes × List Bytes) :
    collectFailuresChecked
        (fs.map fun f => [(buf.drop f.start).take (f.stop - f.start), f.val]) acc =
      some (collectFailures fs acc) := by
  induction fs generalizing acc with
  | nil => rfl
  | cons f fs ih =>
    obtain ⟨failedTests, excludeParents⟩ := acc
    simp only [List.map_cons, collectFailuresChecked, List.get?_cons_succ, List.get?_cons_zero,
      parentPathsChecked_eq, collectFailures, ih]

theorem findFailuresChecked_eq (buf : Bytes) :
    findFailuresChecked buf = some (findFailures buf) := by
  unfold findFailuresChecked failReSubmatches findFailures
  rw [collectFailuresChecked_eq]

theorem WellPlaced_mem (hi lo : Nat) (parts : List SplitMatch) (h : WellPlaced hi lo parts) :
    ∀ part ∈ parts, part.g1s ≤ part.g1e ∧ part.g1e ≤ hi ∧ part.g2s ≤ part.g2e ∧
      part.g2e ≤ hi := by
  induction parts generalizing lo with
  | nil => simp
  | cons p ps ih =>
    obtain ⟨w1, w2, w3, w4, w5, w6, w7, w8⟩ := h
    intro part hpart
    rcases List.mem_cons.mp hpart with rfl | hpart
    · exact ⟨w3, by omega, w5, by omega⟩
    · exact ih p.stop w8 part hpart

/-- C15: no slice or index of `parseFile`, `findFailures` or `saveFailure` is out of
range.  For every member content and archive path the three functions return
(the embedding would yield `none` at a slice out of range): each marker match has
its two groups inside the cleaned buffer, the window bounds satisfy
`prev <= end <= len(buf)` at every iteration, and the extension of the archive's
base name is never longer than the base name. -/
theorem no_slice_out_of_range :
    (∀ outputDir zipFile name buf : Bytes,
      ∃ o, parseFile outputDir zipFile name buf = some o) ∧
    (∀ buf : Bytes, findFailuresChecked buf = some (findFailures buf)) ∧
    (∀ outputDir zipFile name module failedTest buf : Bytes,
      ∃ f, saveFailure outputDir zipFile name module failedTest buf = some f) ∧
    (∀ buf : Bytes, ∀ part ∈ splitReFindAll (cleanBuffer buf),
      part.g1s ≤ part.g1e ∧ part.g1e ≤ (cleanBuffer buf).length ∧
        part.g2s ≤ part.g2e ∧ part.g2e ≤ (cleanBuffer buf).length) ∧
    (∀ buf : Bytes, ∀ w ∈ loopWindows 0 (splitReFindAll (cleanBuffer buf)),
      w.1 ≤ w.2 ∧ w.2 ≤ (cleanBuffer buf).length) ∧
    (∀ zipFile : Bytes, (Ext (Base zipFile)).length ≤ (Base zipFile).length) := by
  refine ⟨?_, findFailuresChecked_eq, ?_, ?_, ?_, fun zipFile => Ext_length_le _⟩
  · intro outputDir zipFile name buf
    exact ⟨_, parseFile_eq outputDir zipFile name buf⟩
  · intro outputDir zipFile name module failedTest buf
    exact ⟨_, saveFailure_eq outputDir zipFile name module failedTest buf⟩
  · intro buf
    exact WellPlaced_mem _ 0 _ (splitReFindAll_wellPlaced (cleanBuffer buf))
  · intro buf w hw
    exact (loopWindows_bounds _ 0 _ (splitReFindAll_wellPlaced (cleanBuffer buf)) w hw).2

end ParseActionsLogs
